import Mathlib

/-!
Verification of the condition-expression canonicalization and
deterministic-ordering engine of `bin/keybindings-sort.py`.

The Python source is shallowly embedded over `List Char` (Python `str`
values are modelled as their character lists; `String` wrappers appear only
at theorem boundaries).  Python integers become `Nat`/`Int`, Python `None`
becomes `Option.none`, and exceptions that the source catches and discards
are not modelled because the embedded functions are total.  Each definition
carries the name of the Python function or method it embeds.  Process-wide
memoization caches (the `CACHE_*` dictionaries) are pure lookup tables keyed
by the full argument tuple, so they change no result and are omitted.

Compiled regular-expression objects that the source only ever uses through
`pat.search(text)` (the optional `--when-regex` list) are modelled as their
boolean match predicate `List Char → Bool`.
-/

/-- Characters Python's `str.strip()` / `str.isspace()` treat as whitespace
(the ASCII range; these tools read and write ASCII whitespace only). -/
def pyIsSpace (c : Char) : Bool :=
  c = ' ' || c = '\t' || c = '\n' || c = '\r' || c = '\x0b' || c = '\x0c'

/-- Python `str.lstrip()` with no argument. -/
def pyLStrip (s : List Char) : List Char :=
  s.dropWhile pyIsSpace

/-- Python `str.rstrip()` with no argument. -/
def pyRStrip (s : List Char) : List Char :=
  (s.reverse.dropWhile pyIsSpace).reverse

/-- Python `str.strip()` with no argument. -/
def pyStrip (s : List Char) : List Char :=
  pyRStrip (pyLStrip s)

/-- Python `str.lstrip(' \t')`: strip leading space/tab only. -/
def pyLStripSpTab (s : List Char) : List Char :=
  s.dropWhile (fun c => c = ' ' || c = '\t')

/-- Python `a.startswith(b)` on strings. -/
def pyStartsWith (s pre : List Char) : Bool :=
  pre.isPrefixOf s

/-- Python `a.endswith(b)` on strings. -/
def pyEndsWith (s suf : List Char) : Bool :=
  suf.reverse.isPrefixOf s.reverse

/-- Python `sub in s` on strings: `sub` occurs contiguously in `s`. -/
def containsSub (s sub : List Char) : Bool :=
  match s with
  | [] => sub.isEmpty
  | _ :: rest => sub.isPrefixOf s || containsSub rest sub

/-- Python `s.count(ch)` for a one-character argument. -/
def countChar (s : List Char) (ch : Char) : Nat :=
  s.countP (fun c => c = ch)

/-- Accumulator loop of `pySplitWs`; `cur` is the word being read, reversed. -/
def splitWsGo (cur : List Char) : List Char → List (List Char)
  | [] => if cur = [] then [] else [cur.reverse]
  | c :: rest =>
    if pyIsSpace c then
      if cur = [] then splitWsGo [] rest else cur.reverse :: splitWsGo [] rest
    else splitWsGo (c :: cur) rest

/-- Python `str.split()` with no argument: split on whitespace runs,
dropping empty pieces. -/
def pySplitWs (s : List Char) : List (List Char) :=
  splitWsGo [] s

/-- Python `s.split(sep)` for a one-character separator: keeps empty pieces. -/
def pySplitChar (sep : Char) (s : List Char) : List (List Char) :=
  match s with
  | [] => [[]]
  | c :: rest =>
    let tailParts := pySplitChar sep rest
    if c = sep then [] :: tailParts
    else
      match tailParts with
      | [] => [[c]]
      | p :: ps => (c :: p) :: ps

/-- Python `"sep".join(parts)`. -/
def joinSep (sep : List Char) : List (List Char) → List Char
  | [] => []
  | [x] => x
  | x :: rest => x ++ sep ++ joinSep sep rest

/-- Accumulator loop of `pySplitLines`; `cur` is the current line, reversed. -/
def splitLinesGo (cur : List Char) : List Char → List (List Char)
  | [] => if cur = [] then [] else [cur.reverse]
  | c :: rest =>
    if c = '\n' then (cur.reverse ++ ['\n']) :: splitLinesGo [] rest
    else splitLinesGo (c :: cur) rest

/-- Python `text.splitlines(keepends=True)` for texts whose only line
terminator is `'\n'` (the only terminator these tools produce or consume). -/
def pySplitLines (s : List Char) : List (List Char) :=
  splitLinesGo [] s

/-- Leading whitespace of a line as the source computes it:
`line[:len(line) - len(line.lstrip(' \t'))]`. -/
def leadingSpTab (s : List Char) : List Char :=
  s.takeWhile (fun c => c = ' ' || c = '\t')

/-- Python string comparison (`<` on `str`): lexicographic by code point. -/
def cmpStr : List Char → List Char → Ordering
  | [], [] => .eq
  | [], _ :: _ => .lt
  | _ :: _, [] => .gt
  | a :: as_, b :: bs =>
    if a.val < b.val then .lt
    else if b.val < a.val then .gt
    else cmpStr as_ bs

/-- Python `c.isdigit()` for the ASCII digits these keys contain. -/
def pyIsDigit (c : Char) : Bool :=
  '0' ≤ c && c ≤ '9'

/-- Python `int(text)` on a run of ASCII digits (leading zeros allowed). -/
def digitsToNat (s : List Char) : Nat :=
  s.foldl (fun acc c => acc * 10 + (c.toNat - '0'.toNat)) 0

/-- One part of a natural sort key: `re.split(r'(\d+)', key)` alternates
non-digit text with captured digit runs, and `natural_key` converts the
digit runs with `int(...)`. -/
inductive NKPart where
  | ns (s : List Char)
  | nn (v : Nat)
deriving DecidableEq

mutual

/-- State machine of the split `NUMBER_SPLIT_RE.split(key)` while reading
non-digit text; `txt` is the text read so far, reversed.  `conv` maps each
non-digit part (identity for `natural_key_case_sensitive`, lower-casing for
`natural_key`); digit runs are converted with `int(...)`. -/
def nsplitText (conv : List Char → List Char) (txt : List Char) :
    List Char → List NKPart
  | [] => [.ns (conv txt.reverse)]
  | c :: rest =>
    if pyIsDigit c then .ns (conv txt.reverse) :: nsplitDigits conv [c] rest
    else nsplitText conv (c :: txt) rest

/-- State machine of the split while reading a digit run; `run` is the run
read so far, reversed. -/
def nsplitDigits (conv : List Char → List Char) (run : List Char) :
    List Char → List NKPart
  | [] => [.nn (digitsToNat run.reverse), .ns (conv [])]
  | c :: rest =>
    if pyIsDigit c then nsplitDigits conv (c :: run) rest
    else .nn (digitsToNat run.reverse) :: nsplitText conv [c] rest
end

/-- Python `c.lower()` for the ASCII identifiers these keys contain. -/
def pyToLower (c : Char) : Char :=
  Char.toLower c

/-- Embeds `natural_key` (case-insensitive: `text.lower()` on the
non-digit parts). -/
def natural_key (s : List Char) : List NKPart :=
  nsplitText (fun t => t.map pyToLower) [] s

/-- Embeds `natural_key_case_sensitive`. -/
def natural_key_case_sensitive (s : List Char) : List NKPart :=
  nsplitText id [] s

/-- Comparison of natural-key parts.  In a list produced by `nsplitText`,
text parts sit at even positions and digit parts at odd positions, so two
natural keys always compare same-constructor parts at the first index where
they differ; the cross-constructor cases (which in Python would raise
`TypeError`) are given a fixed order that no comparison in this development
ever reaches. -/
def cmpNKPart : NKPart → NKPart → Ordering
  | .ns a, .ns b => cmpStr a b
  | .nn a, .nn b => compare a b
  | .ns _, .nn _ => .lt
  | .nn _, .ns _ => .gt

/-- Lexicographic comparison of lists (Python list/tuple `<`): a strict
prefix is smaller. -/
def cmpLex (cmp : α → α → Ordering) : List α → List α → Ordering
  | [], [] => .eq
  | [], _ :: _ => .lt
  | _ :: _, [] => .gt
  | a :: as_, b :: bs =>
    match cmp a b with
    | .eq => cmpLex cmp as_ bs
    | o => o

/-- Comparison of natural keys (Python compares the lists elementwise). -/
def cmpNK (a b : List NKPart) : Ordering :=
  cmpLex cmpNKPart a b

/-- One component of a Python sort-key tuple as this program builds them:
an integer, a natural-key list, or a plain string.  Every sorting pass of
the source compares tuples of one fixed shape, so the cross-constructor
cases of `cmpKE` are never reached. -/
inductive KE where
  | kn (v : Nat)
  | kk (v : List NKPart)
  | kt (v : List Char)
deriving DecidableEq

/-- Comparison of sort-key components. -/
def cmpKE : KE → KE → Ordering
  | .kn a, .kn b => compare a b
  | .kk a, .kk b => cmpNK a b
  | .kt a, .kt b => cmpStr a b
  | .kn _, _ => .lt
  | .kk _, .kn _ => .gt
  | .kk _, .kt _ => .lt
  | .kt _, _ => .gt

/-- Comparison of whole sort keys (Python tuple comparison). -/
def cmpKey (a b : List KE) : Ordering :=
  cmpLex cmpKE a b

/-- Stable insertion into a list sorted by `key`: the new element goes
before the first element whose key is not smaller.  With `stableSortBy`
this reproduces Python's stable `list.sort` / `sorted`. -/
def insertByKey (key : α → List KE) (x : α) : List α → List α
  | [] => [x]
  | y :: ys =>
    match cmpKey (key x) (key y) with
    | .gt => y :: insertByKey key x ys
    | _ => x :: y :: ys

/-- Stable sort by a Python-style tuple key (Python `sorted(l, key=key)`). -/
def stableSortBy (key : α → List KE) : List α → List α
  | [] => []
  | x :: xs => insertByKey key x (stableSortBy key xs)

mutual

/-- Collapse every whitespace run to one space (`WHITESPACE_RE.sub(' ', text)`). -/
def collapseWs : List Char → List Char
  | [] => []
  | c :: rest =>
    if pyIsSpace c then ' ' :: collapseWsRun rest
    else c :: collapseWs rest

/-- Inside a whitespace run already replaced by one space: drop until the
run ends. -/
def collapseWsRun : List Char → List Char
  | [] => []
  | c :: rest =>
    if pyIsSpace c then collapseWsRun rest
    else c :: collapseWs rest

end

/-- Embeds `normalize_operand`: collapse whitespace runs, then strip. -/
def normalize_operand (s : List Char) : List Char :=
  pyStrip (collapseWs s)

/-- Embeds `_normalize_whitespace` (identical computation; the source
guards the empty string, on which the computation is the identity). -/
def normalizeWhitespace (s : List Char) : List Char :=
  pyStrip (collapseWs s)

/-- A token of the when-clause lexer: Python's `('OPERAND', text)` /
`('OP', text)` pairs. -/
inductive WTok where
  | OPERAND (s : List Char)
  | OP (s : List Char)
deriving DecidableEq

/-- The lexer's `flush_buf`: emit an `OPERAND` only when the buffer has
non-whitespace content, normalizing its text. -/
def flushTok (buf : List Char) : List WTok :=
  if pyStrip buf = [] then [] else [.OPERAND (normalize_operand buf)]

/-- The character loop of `tokenize_when`.  `buf` is the operand buffer,
`inS`/`inD`/`inR` the in-single-quote / in-double-quote / in-regex states,
`rEsc` the regex escape flag, and `prev` the `prev_nonspace` character
(`none` for Python's `''`).  Each branch mirrors one `if`/`continue` of the
source loop, in the source's order; two-character steps (`\\` inside a
string, `&&`, `||`) consume two list heads.  One unit of fuel is spent per
loop iteration and every iteration consumes at least one character, so with
the wrapper's fuel of `length + 1` the zero-fuel branch is unreachable. -/
def tokGo : Nat → List Char → Bool → Bool → Bool → Bool → Option Char →
    List Char → List WTok
  | 0, buf, _, _, _, _, _, _ => flushTok buf
  | _ + 1, buf, _, _, _, _, _, [] => flushTok buf
  | fuel + 1, buf, inS, inD, inR, rEsc, prev, c :: cs =>
    if inS then
      if c = '\\' then
        match cs with
        | d :: cs' => tokGo fuel (buf ++ [c, d]) true inD inR rEsc prev cs'
        | [] => flushTok (buf ++ [c])
      else if c = '\x27' then tokGo fuel (buf ++ [c]) false inD inR rEsc prev cs
      else tokGo fuel (buf ++ [c]) true inD inR rEsc prev cs
    else if inD then
      if c = '\\' then
        match cs with
        | d :: cs' => tokGo fuel (buf ++ [c, d]) inS true inR rEsc prev cs'
        | [] => flushTok (buf ++ [c])
      else if c = '"' then tokGo fuel (buf ++ [c]) inS false inR rEsc prev cs
      else tokGo fuel (buf ++ [c]) inS true inR rEsc prev cs
    else if inR then
      if rEsc then tokGo fuel (buf ++ [c]) inS inD true false prev cs
      else if c = '\\' then tokGo fuel (buf ++ [c]) inS inD true true prev cs
      else if c = '/' then tokGo fuel (buf ++ [c]) inS inD false false prev cs
      else tokGo fuel (buf ++ [c]) inS inD true false prev cs
    else if pyIsSpace c then tokGo fuel (buf ++ [c]) inS inD inR rEsc prev cs
    else if c = '\x27' then tokGo fuel (buf ++ [c]) true inD inR rEsc prev cs
    else if c = '"' then tokGo fuel (buf ++ [c]) inS true inR rEsc prev cs
    else if c = '/' && prev = some '~' then
      tokGo fuel (buf ++ [c]) inS inD true rEsc prev cs
    else if c = '&' then
      match cs with
      | '&' :: cs' =>
        flushTok buf ++ .OP ['&', '&'] :: tokGo fuel [] inS inD inR rEsc none cs'
      | _ => tokGo fuel (buf ++ [c]) inS inD inR rEsc (some c) cs
    else if c = '|' then
      match cs with
      | '|' :: cs' =>
        flushTok buf ++ .OP ['|', '|'] :: tokGo fuel [] inS inD inR rEsc none cs'
      | _ => tokGo fuel (buf ++ [c]) inS inD inR rEsc (some c) cs
    else if c = '(' || c = ')' then
      flushTok buf ++ .OP [c] :: tokGo fuel [] inS inD inR rEsc (some c) cs
    else if c = '!' then
      match cs with
      | '=' :: _ => tokGo fuel (buf ++ [c]) inS inD inR rEsc (some '!') cs
      | _ =>
        if pyStrip buf = [] then
          flushTok buf ++ .OP ['!'] :: tokGo fuel [] inS inD inR rEsc (some '!') cs
        else tokGo fuel (buf ++ [c]) inS inD inR rEsc (some c) cs
    else tokGo fuel (buf ++ [c]) inS inD inR rEsc (some c) cs

/-- Embeds `tokenize_when`. -/
def tokenize_when (expr : List Char) : List WTok :=
  tokGo (expr.length + 1) [] false false false false none expr

/-- The condition AST (`WhenNode` and its subclasses `WhenLeaf`, `WhenNot`,
`WhenAnd`, `WhenOr`).  Every node carries the `parens` flag the source
stores on the object. -/
inductive WhenNode where
  | leaf (text : List Char) (parens : Bool)
  | wnot (child : WhenNode) (parens : Bool)
  | wand (children : List WhenNode) (parens : Bool)
  | wor (children : List WhenNode) (parens : Bool)

/-- The `parens` attribute of a node. -/
def WhenNode.getParens : WhenNode → Bool
  | .leaf _ p => p
  | .wnot _ p => p
  | .wand _ p => p
  | .wor _ p => p

/-- Replace the `parens` attribute (the parser's `node.parens = True`). -/
def WhenNode.setParens (b : Bool) : WhenNode → WhenNode
  | .leaf t _ => .leaf t b
  | .wnot c _ => .wnot c b
  | .wand cs _ => .wand cs b
  | .wor cs _ => .wor cs b

/-- Python `isinstance(node, WhenAnd)`. -/
def WhenNode.isAnd : WhenNode → Bool
  | .wand _ _ => true
  | _ => false

/-- Python `isinstance(node, WhenOr)`. -/
def WhenNode.isOr : WhenNode → Bool
  | .wor _ _ => true
  | _ => false

/-- Python `isinstance(node, (WhenAnd, WhenOr))`. -/
def WhenNode.isAndOr : WhenNode → Bool
  | .wand _ _ => true
  | .wor _ _ => true
  | _ => false

/-- Wrap a rendered string in parentheses (the `f'({s})'` of the source). -/
def wrapParens (s : List Char) : List Char :=
  '(' :: s ++ [')']

mutual

/-- Embeds the `to_str` methods: `WhenLeaf.to_str` returns the text;
`WhenNot.to_str` renders `!` before the child's `to_str`, parenthesizing
the child only when it is an `And`/`Or` whose own `parens` flag is unset;
`WhenAnd.to_str` / `WhenOr.to_str` join the children's `render_when_node`
results, parenthesizing `Or` operands of an `And` and `And` operands of an
`Or`.  The body of `render_when_node` (wrap in parentheses when the child's
own `parens` flag is set) is inlined at the recursive call sites so the
recursion stays structural; `render_when_node` itself is the wrapper
defined below. -/
def WhenNode.to_str : WhenNode → List Char
  | .leaf t _ => t
  | .wnot c _ =>
    let childStr := WhenNode.to_str c
    let childStr := if c.isAndOr && !c.getParens then wrapParens childStr else childStr
    '!' :: childStr
  | .wand cs _ => joinSep (' ' :: '&' :: '&' :: [' ']) (andOperandStrs cs)
  | .wor cs _ => joinSep (' ' :: '|' :: '|' :: [' ']) (orOperandStrs cs)

/-- The rendered operand list of `WhenAnd.to_str`: each child through
`render_when_node` (inlined), an `Or` child additionally parenthesized. -/
def andOperandStrs : List WhenNode → List (List Char)
  | [] => []
  | c :: rest =>
    (let s := WhenNode.to_str c
     let s := if c.getParens then wrapParens s else s
     if c.isOr then wrapParens s else s) :: andOperandStrs rest

/-- The rendered operand list of `WhenOr.to_str`: each child through
`render_when_node` (inlined), an `And` child additionally parenthesized. -/
def orOperandStrs : List WhenNode → List (List Char)
  | [] => []
  | c :: rest =>
    (let s := WhenNode.to_str c
     let s := if c.getParens then wrapParens s else s
     if c.isAnd then wrapParens s else s) :: orOperandStrs rest

end

/-- Embeds `render_when_node`: the node's `to_str`, wrapped in parentheses
when its `parens` flag is set. -/
def render_when_node (node : WhenNode) : List Char :=
  let inner := node.to_str
  if node.getParens then wrapParens inner else inner

mutual

/-- Embeds the `_clear_parens` helper inside `canonicalize_when`: clear the
`parens` flag on every node of the tree. -/
def clear_parens : WhenNode → WhenNode
  | .leaf t _ => .leaf t false
  | .wnot c _ => .wnot (clear_parens c) false
  | .wand cs _ => .wand (clearParensList cs) false
  | .wor cs _ => .wor (clearParensList cs) false

/-- `_clear_parens` over a child list. -/
def clearParensList : List WhenNode → List WhenNode
  | [] => []
  | c :: rest => clear_parens c :: clearParensList rest

end

mutual

/-- All `parens` flags of the tree are cleared (the state `_clear_parens`
establishes before rendering). -/
def parensCleared : WhenNode → Bool
  | .leaf _ p => !p
  | .wnot c p => !p && parensCleared c
  | .wand cs p => !p && parensClearedList cs
  | .wor cs p => !p && parensClearedList cs

/-- `parensCleared` over a child list. -/
def parensClearedList : List WhenNode → Bool
  | [] => true
  | c :: rest => parensCleared c && parensClearedList rest

end

mutual

/-- Boolean semantics of a condition tree under a valuation `v` of operand
texts: a leaf is looked up, `!` negates, `And`/`Or` take the conjunction /
disjunction of their children (an empty child list, which the parser never
produces, defaults like Python's `all`/`any`). -/
def eval_when (v : List Char → Bool) : WhenNode → Bool
  | .leaf t _ => v t
  | .wnot c _ => !eval_when v c
  | .wand cs _ => evalAllWhen v cs
  | .wor cs _ => evalAnyWhen v cs

/-- Conjunction of the children's values. -/
def evalAllWhen (v : List Char → Bool) : List WhenNode → Bool
  | [] => true
  | c :: rest => eval_when v c && evalAllWhen v rest

/-- Disjunction of the children's values. -/
def evalAnyWhen (v : List Char → Bool) : List WhenNode → Bool
  | [] => false
  | c :: rest => eval_when v c || evalAnyWhen v rest

end

mutual

/-- Embeds `parse_primary`: an empty stream or a non-`(`/operand token
yields an empty leaf without consuming; `(` parses an inner or-expression
and marks `parens` when the matching `)` is present; an operand token
becomes a leaf.  Fuel is spent once per call edge; the wrapper's fuel
exceeds the parser's maximal call depth, so the zero-fuel branch is
unreachable. -/
def parsePrimary : Nat → List WTok → WhenNode × List WTok
  | 0, ts => (.leaf [] false, ts)
  | fuel + 1, ts =>
    match ts with
    | [] => (.leaf [] false, [])
    | .OP s :: rest =>
      if s = ['('] then
        let pr := parseOrFn fuel rest
        match pr.2 with
        | .OP s2 :: rest' =>
          if s2 = [')'] then (pr.1.setParens true, rest') else (pr.1, pr.2)
        | _ => (pr.1, pr.2)
      else (.leaf [] false, .OP s :: rest)
    | .OPERAND s :: rest => (.leaf s false, rest)

/-- Embeds `parse_unary`: an optional run of leading `!` wrapping
`parse_primary`. -/
def parseUnary : Nat → List WTok → WhenNode × List WTok
  | 0, ts => (.leaf [] false, ts)
  | fuel + 1, ts =>
    match ts with
    | .OP s :: rest =>
      if s = ['!'] then
        let pr := parseUnary fuel rest
        (.wnot pr.1 false, pr.2)
      else parsePrimary fuel ts
    | _ => parsePrimary fuel ts

/-- Embeds `parse_and`: one `parse_unary`, then the `&&` loop; a single
child collapses to itself. -/
def parseAndFn : Nat → List WTok → WhenNode × List WTok
  | 0, ts => (.leaf [] false, ts)
  | fuel + 1, ts =>
    let pr := parseUnary fuel ts
    let lr := parseAndLoop fuel [pr.1] pr.2
    match lr.1 with
    | [x] => (x, lr.2)
    | cs => (.wand cs false, lr.2)

/-- The `while` loop of `parse_and`: as long as the next token is `&&`,
consume it and append another `parse_unary`. -/
def parseAndLoop : Nat → List WhenNode → List WTok → List WhenNode × List WTok
  | 0, acc, ts => (acc, ts)
  | fuel + 1, acc, ts =>
    match ts with
    | .OP s :: rest =>
      if s = ['&', '&'] then
        let pr := parseUnary fuel rest
        parseAndLoop fuel (acc ++ [pr.1]) pr.2
      else (acc, ts)
    | _ => (acc, ts)

/-- Embeds `parse_or`: one `parse_and`, then the `||` loop; a single child
collapses to itself. -/
def parseOrFn : Nat → List WTok → WhenNode × List WTok
  | 0, ts => (.leaf [] false, ts)
  | fuel + 1, ts =>
    let pr := parseAndFn fuel ts
    let lr := parseOrLoop fuel [pr.1] pr.2
    match lr.1 with
    | [x] => (x, lr.2)
    | cs => (.wor cs false, lr.2)

/-- The `while` loop of `parse_or`. -/
def parseOrLoop : Nat → List WhenNode → List WTok → List WhenNode × List WTok
  | 0, acc, ts => (acc, ts)
  | fuel + 1, acc, ts =>
    match ts with
    | .OP s :: rest =>
      if s = ['|', '|'] then
        let pr := parseAndFn fuel rest
        parseOrLoop fuel (acc ++ [pr.1]) pr.2
      else (acc, ts)
    | _ => (acc, ts)

end

/-- Embeds `parse_when`: tokenize, then `parse_or` on the whole stream.
Between two token consumptions the parser descends at most a handful of
call edges (`or → and → unary → primary → or` after a `(`), so
`8 * length + 8` fuel is never exhausted. -/
def parse_when (expr : List Char) : WhenNode :=
  let ts := tokenize_when expr
  (parseOrFn (8 * ts.length + 8) ts).1

/-- The `FOCUS_TOKENS` list (order matters: it also provides sub-ranks). -/
def FOCUS_TOKENS : List (List Char) :=
  ["auxiliaryBarFocus".data, "editorFocus".data, "panelFocus".data,
   "sideBarFocus".data, "terminalFocus".data, "agentSessionsViewerFocused".data,
   "editorTextFocus".data, "inputFocus".data, "listFocus".data,
   "notificationFocus".data, "textInputFocus".data]

/-- The `POSITIONAL_TOKENS` list. -/
def POSITIONAL_TOKENS : List (List Char) :=
  ["config.workbench.activityBar.location".data,
   "config.workbench.sideBar.location".data, "panel.location".data,
   "panelPosition".data, "activeAuxiliary".data, "activeEditor".data,
   "activePanel".data, "activeViewlet".data, "focusedView".data]

/-- The `VISIBILITY_TOKENS` list. -/
def VISIBILITY_TOKENS : List (List Char) :=
  ["auxiliaryBarVisible".data, "agentSessionsViewerVisible".data,
   "editorVisible".data, "notificationCenterVisible".data,
   "notificationToastsVisible".data, "outline.visible".data,
   "panelVisible".data, "searchViewletVisible".data, "sideBarVisible".data,
   "terminalVisible".data, "timeline.visible".data,
   "view.<viewId>.visible".data, "webviewFindWidgetVisible".data]

/-- Python `s.split(sub, 1)` reduced to the two pieces around the first
occurrence of `sub`; `none` when `sub` does not occur. -/
def splitOnceSub (s sub : List Char) : Option (List Char × List Char) :=
  match s with
  | [] => if sub = [] then some ([], []) else none
  | c :: rest =>
    if sub.isPrefixOf s then some ([], s.drop sub.length)
    else (splitOnceSub rest sub).map (fun pr => (c :: pr.1, pr.2))

/-- Embeds `_matches_entry` (and the identical module-level
`_matches_when_entry`): an entry ending in `.` is a prefix pattern, an
entry containing `<viewId>` matches by its prefix and suffix, anything else
matches exactly. -/
def matchesEntry (left entry : List Char) : Bool :=
  if pyEndsWith entry ['.'] then pyStartsWith left entry
  else if containsSub entry "<viewId>".data then
    let pr := (splitOnceSub entry "<viewId>".data).getD (entry, [])
    pyStartsWith left pr.1 && pyEndsWith left pr.2
  else left == entry

/-- The `while t.startswith('(') and t.endswith(')')` loops of the source:
drop the outer pair, strip, repeat.  Each iteration shortens the text by at
least two characters, so fuel `length` is never exhausted. -/
def stripParenPairsF : Nat → List Char → List Char
  | 0, t => t
  | fuel + 1, t =>
    if pyStartsWith t ['('] && pyEndsWith t [')'] then
      stripParenPairsF fuel (pyStrip ((t.drop 1).dropLast))
    else t

/-- The paren-strip loop at its natural fuel. -/
def stripParenPairs (t : List Char) : List Char :=
  stripParenPairsF t.length t

/-- Embeds `left_identifier` (local to `canonicalize_when`): strip, peel
parenthesis pairs, drop one leading `!`, and take the first
whitespace-separated word. -/
def left_identifier (text : List Char) : List Char :=
  let t := pyStrip text
  let t := stripParenPairs t
  let t := if pyStartsWith t ['!'] then pyLStrip (t.drop 1) else t
  (pySplitWs t).headD []

/-- The combined sub-rank
`FOCUS_TOKENS_MAP.get(id, POSITIONAL_TOKENS_MAP.get(id, VISIBILITY_TOKENS_MAP.get(id, 9999)))`:
the index in the first token list that contains the identifier, else 9999. -/
def subRankOf (leftId : List Char) : Nat :=
  match FOCUS_TOKENS.indexOf? leftId with
  | some i => i
  | none =>
    match POSITIONAL_TOKENS.indexOf? leftId with
    | some i => i
    | none =>
      match VISIBILITY_TOKENS.indexOf? leftId with
      | some i => i
      | none => 9999

/-- Embeds `_is_focus`. -/
def isFocusLeft (left : List Char) : Bool :=
  FOCUS_TOKENS.any (fun entry => matchesEntry left entry)

/-- Embeds `_is_visibility`. -/
def isVisibilityLeft (left : List Char) : Bool :=
  VISIBILITY_TOKENS.any (fun entry => matchesEntry left entry)

/-- Embeds `group_rank` (local to `canonicalize_when`).  A non-empty
when-prefix matching the left identifier exactly, or a matching when-regex,
forces rank 0; mode `none` gives every operand rank 1; `focal-invariant`
ranks focus 1, visibility 2, positional 3, `config.` 4, other 5;
`config-first` ranks `config.` 1, positional 2, focus 3, visibility 4,
other 5. -/
def group_rank (mode : List Char) (whenPrefixes : List (List Char))
    (whenRegexes : Option (List (List Char → Bool))) (text : List Char) : Nat :=
  let left := left_identifier text
  if whenPrefixes.any (fun p => p ≠ [] && left == p) then 0
  else if (whenRegexes.getD []).any (fun m => m left) then 0
  else if mode = "none".data then 1
  else if mode = "focal-invariant".data then
    if isFocusLeft left then 1
    else if isVisibilityLeft left then 2
    else if POSITIONAL_TOKENS.any (fun p => pyStartsWith left p) then 3
    else if pyStartsWith left "config.".data then 4
    else 5
  else
    if pyStartsWith left "config.".data then 1
    else if POSITIONAL_TOKENS.any (fun p => pyStartsWith left p) then 2
    else if isFocusLeft left then 3
    else if isVisibilityLeft left then 4
    else 5

/-- Embeds `sort_key` (local to `canonicalize_when`): grouping rank,
token-list sub-rank, natural case-sensitive key of the token with a leading
`!` stripped, and the original index. -/
def sort_key (mode negationMode : List Char) (whenPrefixes : List (List Char))
    (whenRegexes : Option (List (List Char → Bool))) (idx : Nat)
    (node : WhenNode) : List KE :=
  let token := render_when_node node
  let orderToken := if pyStartsWith token ['!'] then token.drop 1 else token
  let leftId := left_identifier token
  let subRank := subRankOf leftId
  if negationMode = "alpha".data then
    [.kn (group_rank mode whenPrefixes whenRegexes token), .kn subRank,
     .kk (natural_key_case_sensitive orderToken), .kn idx]
  else
    [.kn (group_rank mode whenPrefixes whenRegexes token),
     .kk (natural_key_case_sensitive orderToken), .kn idx]

/-- The `_left_id_of` helper of `sort_and_nodes`. -/
def leftIdOfNode (node : WhenNode) : List Char :=
  left_identifier (render_when_node node)

/-- One pass of the prioritization loops of `sort_and_nodes`: the unpicked
children whose left identifier satisfies `matcher`, sorted by the natural
case-sensitive key of their rendering, appended to the prioritized list,
their indices marked picked. -/
def priorityPass (indexed : List (Nat × WhenNode))
    (acc : List WhenNode × List Nat) (matcher : List Char → Bool) :
    List WhenNode × List Nat :=
  let matched := indexed.filter
    (fun p => !acc.2.contains p.1 && matcher (leftIdOfNode p.2))
  if matched.isEmpty then acc
  else
    let sortedM := stableSortBy
      (fun p => [KE.kk (natural_key_case_sensitive (render_when_node p.2))]) matched
    (acc.1 ++ sortedM.map Prod.snd, acc.2 ++ sortedM.map Prod.fst)

/-- The prioritization of `sort_and_nodes`: one `priorityPass` per
when-prefix (exact match on the left identifier), then one per when-regex
(predicate match), in list order. -/
def prioritizeChildren (whenPrefixes : List (List Char))
    (whenRegexes : Option (List (List Char → Bool)))
    (indexed : List (Nat × WhenNode)) : List WhenNode × List Nat :=
  let afterPrefixes := whenPrefixes.foldl
    (fun acc pref => priorityPass indexed acc (fun lid => lid == pref)) ([], [])
  (whenRegexes.getD []).foldl
    (fun acc m => priorityPass indexed acc (fun lid => m lid)) afterPrefixes

/-- Embeds `render_base_and_flag` (local to `sort_and_nodes`): the rendered
token, its parenthesis-stripped base, and whether that base is negated. -/
def render_base_and_flag (child : WhenNode) :
    List Char × Bool × List Char :=
  let tok := render_when_node child
  let base := stripParenPairs (pyStrip tok)
  let isNeg := pyStartsWith base ['!']
  let base := if isNeg then pyLStrip (base.drop 1) else base
  (base, isNeg, tok)

/-- The sort key the non-alpha branch of `sort_and_nodes` attaches to a
child (the third component of `items_with_keys`); `nm` is the negation
mode after the `beta → positive-natural` aliasing. -/
def nonAlphaKey (nm mode : List Char) (whenPrefixes : List (List Char))
    (whenRegexes : Option (List (List Char → Bool))) (idx : Nat)
    (child : WhenNode) : List KE :=
  let bf := render_base_and_flag child
  let base := bf.1
  let isNeg := bf.2.1
  let tok := bf.2.2
  let baseKey := natural_key base
  let grp := group_rank mode whenPrefixes whenRegexes tok
  let lid := leftIdOfNode child
  let fRank := subRankOf lid
  if nm = "natural".data then
    [.kn grp, .kn fRank, .kk baseKey, .kn idx, .kt tok]
  else if nm = "positive-natural".data then
    [.kn grp, .kn (if isNeg then 1 else 0), .kn fRank, .kk baseKey, .kn idx, .kt tok]
  else if nm = "negative-natural".data then
    [.kn grp, .kn (if isNeg then 0 else 1), .kn fRank, .kk baseKey, .kn idx, .kt tok]
  else if nm = "positive".data then
    [.kn grp, .kn (if isNeg then 1 else 0), .kn fRank,
     .kk (natural_key_case_sensitive base), .kn idx, .kt tok]
  else if nm = "negative".data then
    [.kn grp, .kn (if isNeg then 0 else 1), .kn fRank,
     .kk (natural_key_case_sensitive base), .kn idx, .kt tok]
  else
    [.kn grp, .kn 0, .kk baseKey, .kn idx, .kt tok]

/-- The deduplication loop shared by the `And` and `Or` branches of
`sort_and_nodes`: drop a child whose rendering was already seen, keeping
the first occurrence; `seen` is the set of renderings seen so far. -/
def dedupByRenderGo (seen : List (List Char)) : List WhenNode → List WhenNode
  | [] => []
  | c :: rest =>
    let tok := render_when_node c
    if seen.contains tok then dedupByRenderGo seen rest
    else c :: dedupByRenderGo (tok :: seen) rest

/-- The deduplication loop started with nothing seen. -/
def dedupByRender (l : List WhenNode) : List WhenNode :=
  dedupByRenderGo [] l

/-- The `And` branch of `sort_and_nodes` after the recursive calls:
prioritize when-prefix/when-regex matches, sort the indexed children
(group-aware `sort_key` under `alpha`, `nonAlphaKey` otherwise), put the
prioritized children first dropping their renderings from the sorted rest,
and deduplicate by rendering. -/
def sortAndChildren (mode negationMode : List Char)
    (whenPrefixes : List (List Char))
    (whenRegexes : Option (List (List Char → Bool)))
    (children : List WhenNode) : List WhenNode :=
  let indexed := children.enum
  let pp := prioritizeChildren whenPrefixes whenRegexes indexed
  let nm := if negationMode = "beta".data then "positive-natural".data
            else negationMode
  let sortedChildren :=
    if negationMode = "alpha".data then
      (stableSortBy (fun p => sort_key mode negationMode whenPrefixes whenRegexes p.1 p.2)
        indexed).map Prod.snd
    else
      (stableSortBy (fun p => nonAlphaKey nm mode whenPrefixes whenRegexes p.1 p.2)
        indexed).map Prod.snd
  let merged :=
    if !pp.1.isEmpty then
      let prioritizedTokens := pp.1.map render_when_node
      pp.1 ++ sortedChildren.filter
        (fun c => !prioritizedTokens.contains (render_when_node c))
    else sortedChildren
  dedupByRender merged

/-- The flattening step of the `Or` branch of `sort_and_nodes`: direct
`Or` children contribute their child lists in place. -/
def flattenOrChildren : List WhenNode → List WhenNode
  | [] => []
  | .wor cs _ :: rest => cs ++ flattenOrChildren rest
  | c :: rest => c :: flattenOrChildren rest

/-- The `Or` branch of `sort_and_nodes` after the recursive calls: flatten
nested `Or`s, sort by `(natural_key_case_sensitive(render(child)), index)`,
and deduplicate by rendering. -/
def sortOrChildren (children : List WhenNode) : List WhenNode :=
  let items := flattenOrChildren children
  let sorted := (stableSortBy
    (fun p => [KE.kk (natural_key_case_sensitive (render_when_node p.2)), KE.kn p.1])
    items.enum).map Prod.snd
  dedupByRender sorted

mutual

/-- Embeds `sort_and_nodes` (local to `canonicalize_when`) as a pure
bottom-up transformation: children first, then the `And`/`Or` branch
bodies; `Not` only recurses; leaves are untouched.  The `parens` flags are
not modified here (the source mutates only `children`). -/
def sort_and_nodes (mode negationMode : List Char)
    (whenPrefixes : List (List Char))
    (whenRegexes : Option (List (List Char → Bool))) :
    WhenNode → WhenNode
  | .leaf t p => .leaf t p
  | .wnot c p => .wnot (sort_and_nodes mode negationMode whenPrefixes whenRegexes c) p
  | .wand cs p =>
    .wand (sortAndChildren mode negationMode whenPrefixes whenRegexes
      (sortNodesList mode negationMode whenPrefixes whenRegexes cs)) p
  | .wor cs p =>
    .wor (sortOrChildren
      (sortNodesList mode negationMode whenPrefixes whenRegexes cs)) p

/-- `sort_and_nodes` over a child list. -/
def sortNodesList (mode negationMode : List Char)
    (whenPrefixes : List (List Char))
    (whenRegexes : Option (List (List Char → Bool))) :
    List WhenNode → List WhenNode
  | [] => []
  | c :: rest =>
    sort_and_nodes mode negationMode whenPrefixes whenRegexes c ::
      sortNodesList mode negationMode whenPrefixes whenRegexes rest

end

/-- Embeds `canonicalize_when`: the empty condition canonicalizes to the
empty string; otherwise parse, run `sort_and_nodes`, clear all `parens`
flags, and render.  The memoization cache is keyed by the full argument
tuple and only replays this computation, so it is omitted. -/
def canonicalize_when (whenVal : List Char) (mode negationMode : List Char)
    (whenPrefixes : List (List Char))
    (whenRegexes : Option (List (List Char → Bool))) : List Char :=
  if whenVal = [] then []
  else
    render_when_node (clear_parens
      (sort_and_nodes mode negationMode whenPrefixes whenRegexes
        (parse_when whenVal)))

/-- The canonicalizer at its Python default arguments
(`mode='config-first'`, `negation_mode='alpha'`, no priority lists). -/
def canon_cf_alpha (s : List Char) : List Char :=
  canonicalize_when s "config-first".data "alpha".data [] none

/-- The first scanning loop of `extract_preamble_postamble`: find the
opening `[`, skipping line and block comments.  Returns the text before the
bracket and the text after it.  The loop sets `in_string`/`esc` on quotes
but never reads them back, so a quote is consumed like any ordinary
character; the comment checks (`//`, `/*`) come first, exactly as in the
source.  Fuel is one unit per loop iteration; every iteration consumes at
least one character, so the wrapper's `length + 1` fuel is never
exhausted. -/
def findOpenSplit : Nat → Bool → Bool → List Char → Option (List Char × List Char)
  | 0, _, _, _ => none
  | _ + 1, _, _, [] => none
  | fuel + 1, inL, inB, c :: cs =>
    if inL then
      (findOpenSplit fuel (!(c = '\n')) inB cs).map (fun pr => (c :: pr.1, pr.2))
    else if inB then
      if c = '*' then
        match cs with
        | '/' :: cs' =>
          (findOpenSplit fuel false false cs').map (fun pr => (c :: '/' :: pr.1, pr.2))
        | _ => (findOpenSplit fuel false true cs).map (fun pr => (c :: pr.1, pr.2))
      else (findOpenSplit fuel false true cs).map (fun pr => (c :: pr.1, pr.2))
    else if c = '/' then
      match cs with
      | '/' :: cs' =>
        (findOpenSplit fuel true false cs').map (fun pr => (c :: '/' :: pr.1, pr.2))
      | '*' :: cs' =>
        (findOpenSplit fuel false true cs').map (fun pr => (c :: '*' :: pr.1, pr.2))
      | _ => (findOpenSplit fuel false false cs).map (fun pr => (c :: pr.1, pr.2))
    else if c = '[' then some ([], cs)
    else (findOpenSplit fuel false false cs).map (fun pr => (c :: pr.1, pr.2))

/-- The second scanning loop of `extract_preamble_postamble`: find the `]`
matching the opening bracket, tracking string state (with escape handling
and the opening quote character), comment state, and bracket depth.
Returns the array body and the text after the closing bracket. -/
def findCloseSplit : Nat → Bool → Char → Bool → Bool → Bool → Nat →
    List Char → Option (List Char × List Char)
  | 0, _, _, _, _, _, _, _ => none
  | _ + 1, _, _, _, _, _, _, [] => none
  | fuel + 1, inStr, strCh, esc, inL, inB, depth, c :: cs =>
    if inL then
      (findCloseSplit fuel inStr strCh esc (!(c = '\n')) inB depth cs).map
        (fun pr => (c :: pr.1, pr.2))
    else if inB then
      if c = '*' then
        match cs with
        | '/' :: cs' =>
          (findCloseSplit fuel inStr strCh esc inL false depth cs').map
            (fun pr => (c :: '/' :: pr.1, pr.2))
        | _ =>
          (findCloseSplit fuel inStr strCh esc inL true depth cs).map
            (fun pr => (c :: pr.1, pr.2))
      else
        (findCloseSplit fuel inStr strCh esc inL true depth cs).map
          (fun pr => (c :: pr.1, pr.2))
    else if inStr then
      if esc then
        (findCloseSplit fuel true strCh false inL inB depth cs).map
          (fun pr => (c :: pr.1, pr.2))
      else if c = '\\' then
        (findCloseSplit fuel true strCh true inL inB depth cs).map
          (fun pr => (c :: pr.1, pr.2))
      else if c = strCh then
        (findCloseSplit fuel false strCh esc inL inB depth cs).map
          (fun pr => (c :: pr.1, pr.2))
      else
        (findCloseSplit fuel true strCh esc inL inB depth cs).map
          (fun pr => (c :: pr.1, pr.2))
    else if c = '/' then
      match cs with
      | '/' :: cs' =>
        (findCloseSplit fuel inStr strCh esc true inB depth cs').map
          (fun pr => (c :: '/' :: pr.1, pr.2))
      | '*' :: cs' =>
        (findCloseSplit fuel inStr strCh esc inL true depth cs').map
          (fun pr => (c :: '*' :: pr.1, pr.2))
      | _ =>
        (findCloseSplit fuel inStr strCh esc inL inB depth cs).map
          (fun pr => (c :: pr.1, pr.2))
    else if c = '"' || c = '\x27' then
      (findCloseSplit fuel true c esc inL inB depth cs).map
        (fun pr => (c :: pr.1, pr.2))
    else if c = '[' then
      (findCloseSplit fuel inStr strCh esc inL inB (depth + 1) cs).map
        (fun pr => (c :: pr.1, pr.2))
    else if c = ']' then
      if depth = 1 then some ([], cs)
      else
        (findCloseSplit fuel inStr strCh esc inL inB (depth - 1) cs).map
          (fun pr => (c :: pr.1, pr.2))
    else
      (findCloseSplit fuel inStr strCh esc inL inB depth cs).map
        (fun pr => (c :: pr.1, pr.2))

/-- Embeds `extract_preamble_postamble`: locate the top-level array; on
failure of either scan return empty preamble and array text with the whole
input as the third component. -/
def extract_preamble_postamble (text : List Char) :
    List Char × List Char × List Char :=
  match findOpenSplit (text.length + 1) false false text with
  | none => ([], [], text)
  | some pr =>
    match findCloseSplit (pr.2.length + 1) false ' ' false false false 1 pr.2 with
    | none => ([], [], text)
    | some qr => (pr.1, qr.1, qr.2)

/-- The line loop of `group_objects_with_comments`.  `comments` and `buf`
accumulate the pending comment block and the current object's lines;
`depth` is the running brace balance (a Python `int`).  Whitespace holds no
braces, so counting braces on the raw line equals the source's count on
the stripped first line. -/
def groupObjectsGo (comments buf : List Char) (depth : Int) (inObj : Bool) :
    List (List Char) → List (List Char × List Char) × List Char
  | [] => ([], comments)
  | line :: rest =>
    if !inObj then
      if containsSub (pyStrip line) ['{'] then
        groupObjectsGo comments line
          ((countChar line '{' : Int) - (countChar line '}' : Int)) true rest
      else groupObjectsGo (comments ++ line) buf depth false rest
    else
      let buf' := buf ++ line
      let depth' := depth + (countChar line '{' : Int) - (countChar line '}' : Int)
      if depth' = 0 then
        let tailRes := groupObjectsGo [] [] 0 false rest
        ((comments, buf') :: tailRes.1, tailRes.2)
      else groupObjectsGo comments buf' depth' true rest

/-- Embeds `group_objects_with_comments`: split the array body into
(leading-comment-block, object-text) pairs plus the trailing comment
block. -/
def group_objects_with_comments (arrayText : List Char) :
    List (List Char × List Char) × List Char :=
  groupObjectsGo [] [] 0 false (pySplitLines arrayText)

/-- Match a JSON string literal `"(?:\\.|[^"\\])*"` at the head of `s`
(the first alternative of `COMMENT_RE`): returns the literal including both
quotes and the rest, or `none` when the head is no complete literal. -/
def matchJsonStringTok : Nat → List Char → Option (List Char × List Char)
  | 0, _ => none
  | _ + 1, [] => none
  | fuel + 1, c :: cs =>
    if c = '"' then some (['"'], cs)
    else if c = '\\' then
      match cs with
      | d :: cs' =>
        (matchJsonStringTok fuel cs').map (fun pr => (c :: d :: pr.1, pr.2))
      | [] => none
    else (matchJsonStringTok fuel cs).map (fun pr => (c :: pr.1, pr.2))

/-- Rest of the input after a closing `*/`, or `none` (`/\*.*?\*/` needs
the closer to match at all). -/
def findBlockCommentEnd : Nat → List Char → Option (List Char)
  | 0, _ => none
  | _ + 1, [] => none
  | fuel + 1, c :: cs =>
    if c = '*' then
      match cs with
      | '/' :: cs' => some cs'
      | _ => findBlockCommentEnd fuel cs
    else findBlockCommentEnd fuel cs

/-- Embeds `strip_json_comments`: the left-to-right scan of `COMMENT_RE`,
keeping string literals, deleting `//` comments up to (not including) the
line end and `/* ... */` comments; where no alternative matches the
character is kept and the scan moves on by one. -/
def stripJsonCommentsF : Nat → List Char → List Char
  | 0, s => s
  | _ + 1, [] => []
  | fuel + 1, c :: cs =>
    if c = '"' then
      match matchJsonStringTok (cs.length + 1) cs with
      | some pr => '"' :: pr.1 ++ stripJsonCommentsF fuel pr.2
      | none => c :: stripJsonCommentsF fuel cs
    else if c = '/' then
      match cs with
      | '/' :: cs' => stripJsonCommentsF fuel (cs'.dropWhile (fun d => !(d = '\n')))
      | '*' :: cs' =>
        match findBlockCommentEnd (cs'.length + 1) cs' with
        | some rest => stripJsonCommentsF fuel rest
        | none => c :: stripJsonCommentsF fuel cs
      | _ => c :: stripJsonCommentsF fuel cs
    else c :: stripJsonCommentsF fuel cs

/-- Embeds `strip_json_comments` at its natural fuel. -/
def strip_json_comments (s : List Char) : List Char :=
  stripJsonCommentsF (s.length + 1) s

/-- Embeds `strip_trailing_commas` (`TRAILING_COMMA_RE.sub(r'\1', text)`):
a comma followed by whitespace and a closing brace or bracket is replaced
by that bracket. -/
def stripTrailingCommasF : Nat → List Char → List Char
  | 0, s => s
  | _ + 1, [] => []
  | fuel + 1, c :: cs =>
    if c = ',' then
      match cs.dropWhile pyIsSpace with
      | b :: rest' =>
        if b = '\x7d' || b = ']' then b :: stripTrailingCommasF fuel rest'
        else c :: stripTrailingCommasF fuel cs
      | [] => c :: stripTrailingCommasF fuel cs
    else c :: stripTrailingCommasF fuel cs

/-- Embeds `strip_trailing_commas` at its natural fuel. -/
def strip_trailing_commas (s : List Char) : List Char :=
  stripTrailingCommasF (s.length + 1) s

/-- The `OBJ_RE.search` of `parse_object_text` (`\{.*\}` with `DOTALL`):
the slice from the first `{` to the last `}` after it, or `none`. -/
def objSearch (s : List Char) : Option (List Char) :=
  let pre := s.takeWhile (fun c => !(c = '\x7b'))
  if pre.length = s.length then none
  else
    let fromBrace := s.drop pre.length
    let tailLen := (fromBrace.reverse.takeWhile (fun c => !(c = '\x7d'))).length
    if tailLen = fromBrace.length then none
    else
      let matchLen := fromBrace.length - tailLen
      if 2 ≤ matchLen then some (fromBrace.take matchLen) else none

/-- Decoded content of a JSON string body starting after the opening quote:
`(decoded text, rest after the closing quote)`.  Models the string grammar
`json.loads` accepts, restricted to the escapes these files use
(`\" \\ \/ \n \t \r`); other escapes make the parse fail. -/
def jsonStringBody : Nat → List Char → Option (List Char × List Char)
  | 0, _ => none
  | _ + 1, [] => none
  | fuel + 1, c :: cs =>
    if c = '"' then some ([], cs)
    else if c = '\\' then
      match cs with
      | d :: cs' =>
        let dec : Option Char :=
          if d = '"' then some '"'
          else if d = '\\' then some '\\'
          else if d = '/' then some '/'
          else if d = 'n' then some '\n'
          else if d = 't' then some '\t'
          else if d = 'r' then some '\r'
          else none
        match dec with
        | some ch => (jsonStringBody fuel cs').map (fun pr => (ch :: pr.1, pr.2))
        | none => none
      | [] => none
    else (jsonStringBody fuel cs).map (fun pr => (c :: pr.1, pr.2))

/-- JSON whitespace skipping (the inputs use ASCII whitespace only). -/
def jsonSkipWs (s : List Char) : List Char :=
  s.dropWhile pyIsSpace

/-- The member list of a JSON object body (after the opening brace and
leading whitespace): `"key" : "value"` pairs separated by commas, up to the
closing brace.  Returns the pairs and the rest after the closing brace.
Models `json.loads` restricted to string values — the only value type the
keybinding objects analyzed here carry; any other value fails the parse. -/
def jsonMembersGo : Nat → List Char → Option (List (List Char × List Char) × List Char)
  | 0, _ => none
  | fuel + 1, s =>
    match s with
    | '"' :: rest =>
      match jsonStringBody (rest.length + 1) rest with
      | none => none
      | some (key, rest1) =>
        match jsonSkipWs rest1 with
        | ':' :: rest3 =>
          match jsonSkipWs rest3 with
          | '"' :: rest5 =>
            match jsonStringBody (rest5.length + 1) rest5 with
            | none => none
            | some (val, rest6) =>
              match jsonSkipWs rest6 with
              | ',' :: rest8 =>
                (jsonMembersGo fuel (jsonSkipWs rest8)).map
                  (fun pr => ((key, val) :: pr.1, pr.2))
              | '\x7d' :: rest8 => some ([(key, val)], rest8)
              | _ => none
          | _ => none
        | _ => none
    | _ => none

/-- Model of `json.loads` on one object of string-valued members (see
`jsonMembersGo`); the whole input must be consumed up to trailing
whitespace. -/
def json_loads_object (s : List Char) :
    Option (List (List Char × List Char)) :=
  match jsonSkipWs s with
  | '\x7b' :: rest =>
    match jsonSkipWs rest with
    | '\x7d' :: tail => if (jsonSkipWs tail).isEmpty then some [] else none
    | t =>
      match jsonMembersGo (t.length + 1) t with
      | some (ms, tail) => if (jsonSkipWs tail).isEmpty then some ms else none
      | none => none
  | _ => none

/-- Python `dict.get(k, default)` for a dict built from parsed JSON
members: the last occurrence of a repeated key wins. -/
def dictGet (d : List (List Char × List Char)) (k dflt : List Char) : List Char :=
  match d.reverse.find? (fun p => p.1 == k) with
  | some p => p.2
  | none => dflt

/-- Embeds `parse_object_text`: locate the `{...}` span, strip comments and
trailing commas, and parse it as JSON; `none` on any failure.  (The
`CACHE_JSON_OBJECT` memoization only replays this computation.) -/
def parse_object_text (objText : List Char) :
    Option (List (List Char × List Char)) :=
  if objText.isEmpty then none
  else
    match objSearch objText with
    | none => none
    | some objStr =>
      json_loads_object (strip_trailing_commas (strip_json_comments objStr))

/-- Embeds `extract_key_when`: the parsed `key` and `when` fields, empty
strings when the object does not parse. -/
def extract_key_when (objText : List Char) : List Char × List Char :=
  match parse_object_text objText with
  | none => ([], [])
  | some d => (dictGet d "key".data [], dictGet d "when".data [])

/-- Position of the first occurrence of `sub` in `s` (Python `s.find(sub)`),
`none` for Python's `-1`. -/
def findSubPos (s sub : List Char) : Option Nat :=
  match s with
  | [] => if sub.isEmpty then some 0 else none
  | _ :: rest =>
    if sub.isPrefixOf s then some 0
    else (findSubPos rest sub).map (· + 1)

/-- Embeds `_decode_json_string_literal`: decode the raw text of a JSON
string literal; where `json.loads` would fail the source falls back to
`unicode_escape` and then to the raw text — the inputs analyzed here
contain no such escapes, so the fallback is the raw text itself. -/
def decode_json_string_literal (raw : List Char) : List Char :=
  match jsonStringBody (raw.length + 2) (raw ++ ['"']) with
  | some pr => if pr.2.isEmpty then pr.1 else raw
  | none => raw

/-- Model of `json.dumps(s)[1:-1]` for the ASCII texts these conditions
hold: escape the backslash, the double quote and the control characters
`\n`, `\t`, `\r`; every other character of these inputs is printable ASCII
and is emitted verbatim. -/
def jsonEscapeInner (s : List Char) : List Char :=
  s.flatMap (fun c =>
    if c = '\\' then ['\\', '\\']
    else if c = '"' then ['\\', '"']
    else if c = '\n' then ['\\', 'n']
    else if c = '\t' then ['\\', 't']
    else if c = '\r' then ['\\', 'r']
    else [c])

/-- The whitespace-and-comment skip loop of `normalize_when_in_object`
(after the colon): returns the number of characters consumed.  Each
iteration consumes at least one character. -/
def skipWsCommentsF : Nat → List Char → Nat
  | 0, _ => 0
  | _ + 1, [] => 0
  | fuel + 1, c :: cs =>
    if pyStartsWith (c :: cs) "//".data then
      let upto := (c :: cs).takeWhile (fun d => !(d = '\n'))
      if upto.length = (c :: cs).length then (c :: cs).length
      else (upto.length + 1) + skipWsCommentsF fuel ((c :: cs).drop (upto.length + 1))
    else if pyStartsWith (c :: cs) "/*".data then
      match findBlockCommentEnd (cs.length + 1) ((c :: cs).drop 2) with
      | some rest => ((c :: cs).length - rest.length) + skipWsCommentsF fuel rest
      | none => (c :: cs).length
    else if pyIsSpace c then 1 + skipWsCommentsF fuel cs
    else 0

/-- The closing-quote scan of `normalize_when_in_object`: offset of the
closing quote from the scan start, honoring backslash escapes (`j += 2`);
`none` when the scan runs past the end. -/
def scanToQuote : Nat → List Char → Option Nat
  | 0, _ => none
  | _ + 1, [] => none
  | fuel + 1, c :: cs =>
    if c = '\\' then
      match cs with
      | _ :: cs' => (scanToQuote fuel cs').map (· + 2)
      | [] => none
    else if c = '"' then some 0
    else (scanToQuote fuel cs).map (· + 1)

/-- Python `dict.get(k)` with no default: `none` for a missing key. -/
def dictGetOpt (d : List (List Char × List Char)) (k : List Char) :
    Option (List Char) :=
  (d.reverse.find? (fun p => p.1 == k)).map (·.2)

/-- Embeds `normalize_when_in_object`: canonicalize the parsed `when`
value and, when it changed, splice the JSON-escaped canonical text into
the `when` string literal located by scanning from the `"when"` key.
Returns the (possibly rewritten) object text and the changed flag. -/
def normalize_when_in_object (objText : List Char) (mode negationMode : List Char)
    (whenPrefixes : List (List Char))
    (whenRegexes : Option (List (List Char → Bool))) : List Char × Bool :=
  match parse_object_text objText with
  | none => (objText, false)
  | some d =>
    match dictGetOpt d "when".data with
    | none => (objText, false)
    | some whenVal =>
      if whenVal = [] then (objText, false)
      else
        let normalized := canonicalize_when whenVal mode negationMode whenPrefixes whenRegexes
        if normalized = whenVal then (objText, false)
        else
          match findSubPos objText "\"when\"".data with
          | none => (objText, false)
          | some idx =>
            match findSubPos (objText.drop idx) [':'] with
            | none => (objText, false)
            | some colonOff =>
              let afterColon := objText.drop (idx + colonOff + 1)
              let consumed := skipWsCommentsF (afterColon.length + 1) afterColon
              let i := idx + colonOff + 1 + consumed
              match (objText.drop i).head? with
              | some '"' =>
                let qstart := i
                match scanToQuote ((objText.drop (qstart + 1)).length + 1)
                    (objText.drop (qstart + 1)) with
                | none => (objText, false)
                | some off =>
                  let j := qstart + 1 + off
                  let escaped := jsonEscapeInner normalized
                  (objText.take (qstart + 1) ++ escaped ++ objText.drop j, true)
              | _ => (objText, false)

/-- The search for the first line containing `{` inside
`_embed_duplicate_comment_in_object`: the lines before it, the line
itself, and the lines after. -/
def findOpenLine : List (List Char) →
    Option (List (List Char) × List Char × List (List Char))
  | [] => none
  | l :: rest =>
    if containsSub l ['\x7b'] then some ([], l, rest)
    else (findOpenLine rest).map (fun tr => (l :: tr.1, tr.2.1, tr.2.2))

/-- The indent scan of `_embed_duplicate_comment_in_object`: skip blank
lines; stop with no indent at a closing brace; otherwise take the first
non-blank line's leading space/tab run. -/
def indentFromLines : List (List Char) → List Char
  | [] => []
  | l :: rest =>
    let stripped := pyStrip l
    if stripped = [] then indentFromLines rest
    else if pyStartsWith stripped ['\x7d'] then []
    else leadingSpTab l

/-- Embeds `_embed_duplicate_comment_in_object`: insert the diagnostic
comment line, indented like the first body line (or the opener's indent
plus four spaces), right after the line holding the opening brace. -/
def embed_duplicate_comment_in_object (objText dupComment : List Char) : List Char :=
  if dupComment = [] then objText
  else
    let lineComment := pyStrip dupComment
    if lineComment = [] then objText
    else
      let lineComment :=
        if pyStartsWith lineComment "//".data then lineComment
        else "// ".data ++ lineComment
      let lines := pySplitLines objText
      if lines.isEmpty then objText
      else
        match findOpenLine lines with
        | none => objText
        | some tr =>
          let indent := indentFromLines tr.2.2
          let indent := if indent = [] then leadingSpTab tr.2.1 ++ "    ".data else indent
          (tr.1.foldr (· ++ ·) []) ++ tr.2.1 ++ indent ++ lineComment ++ ['\n'] ++
            (tr.2.2.foldr (· ++ ·) [])

/-- Python `splitlines()` without kept ends (on `'\n'`-terminated text). -/
def pySplitLinesNoEnd (s : List Char) : List (List Char) :=
  (pySplitLines s).map (fun l => if pyEndsWith l ['\n'] then l.dropLast else l)

/-- The reversed-line loop of `object_has_trailing_comma`. -/
def trailingCommaLoop (foundClosing : Bool) : List (List Char) → Bool
  | [] => false
  | line :: rest =>
    let stripped := pyStrip line
    if stripped = [] then trailingCommaLoop foundClosing rest
    else if !foundClosing && pyEndsWith stripped ['\x7d'] then
      trailingCommaLoop true rest
    else if foundClosing then
      if pyStartsWith stripped [','] then true
      else if !stripped.isEmpty && !pyStartsWith stripped "//".data &&
          !pyStartsWith stripped "/*".data then false
      else trailingCommaLoop foundClosing rest
    else trailingCommaLoop foundClosing rest

/-- Embeds `object_has_trailing_comma`: scan the lines after the last
closing brace, from the bottom up. -/
def object_has_trailing_comma (objText : List Char) : Bool :=
  trailingCommaLoop false (pySplitLinesNoEnd (pyRStrip objText)).reverse

/-- Embeds `BLANK_LINES_RE.sub('', text)`: remove every line that is
whitespace followed by its newline. -/
def removeBlankLines (s : List Char) : List Char :=
  ((pySplitLines s).filter
    (fun l => !(pyEndsWith l ['\n'] && pyStrip l = []))).foldr (· ++ ·) []

/-- Embeds `LEADING_COMMA_RE.sub('', text)` (`^\s*,+`): drop leading
whitespace and the comma run after it, only when at least one comma
follows the whitespace. -/
def leadingCommaSub (s : List Char) : List Char :=
  let rest := s.dropWhile pyIsSpace
  match rest with
  | ',' :: _ => rest.dropWhile (fun c => c = ',')
  | _ => s

/-- The character class of `STRIP_WS_RE` (`[ \t\r\n]`). -/
def isStripWsChar (c : Char) : Bool :=
  c = ' ' || c = '\t' || c = '\r' || c = '\n'

/-- Embeds `STRIP_WS_RE.sub('', text)`: strip that class from both ends. -/
def stripWsBoth (s : List Char) : List Char :=
  ((s.dropWhile isStripWsChar).reverse.dropWhile isStripWsChar).reverse

/-- Position of the last `ch` in `s` (Python `s.rfind(ch)`), `none` for
`-1`. -/
def rfindChar (s : List Char) (ch : Char) : Option Nat :=
  let tl := (s.reverse.takeWhile (fun c => !(c = ch))).length
  if tl = s.length then none else some (s.length - 1 - tl)

/-- Model of Python `repr` on the short ASCII strings interpolated into
the duplicate diagnostic (`f'... {key_val!r} ...'`): such strings hold no
quotes, backslashes or control characters, so `repr` wraps them in single
quotes verbatim. -/
def pyReprStr (s : List Char) : List Char :=
  '\x27' :: s ++ ['\x27']

/-- Lookup in the `seen_pairs` dictionary. -/
def seenPairsGet (m : List ((List Char × List Char) × List (List Char)))
    (k : List Char × List Char) : Option (List (List Char)) :=
  (m.find? (fun p => p.1 == k)).map (·.2)

/-- Update of one entry of the `seen_pairs` dictionary. -/
def seenPairsSet (m : List ((List Char × List Char) × List (List Char)))
    (k : List Char × List Char) (v : List (List Char)) :
    List ((List Char × List Char) × List (List Char)) :=
  m.map (fun p => if p.1 == k then (k, v) else p)

/-- The object fingerprint of `_assemble_sorted_output`: the text up to
and including the last `}` (the whole text when there is none),
stripped. -/
def objFingerprint (objOut : List Char) : List Char :=
  match rfindChar objOut '\x7d' with
  | some i => pyStrip (objOut.take (i + 1))
  | none => pyStrip objOut

/-- The body of `_assemble_sorted_output`'s loop over `sorted_groups`:
normalize the object's `when`, flag a repeated (key, canonical-when) pair
with an embedded diagnostic comment, re-join the leading comments (blank
lines removed), drop commas straggling after the closing brace, and add
the separating comma and newline.  `seen` is the `seen_pairs` dictionary,
`idx`/`total` drive the `is_last` test. -/
def assembleGo (mode negationMode : List Char)
    (whenPrefixes : List (List Char))
    (whenRegexes : Option (List (List Char → Bool)))
    (seen : List ((List Char × List Char) × List (List Char)))
    (idx total : Nat) : List (List Char × List Char) → List Char
  | [] => []
  | (comments, obj) :: rest =>
    let isLast := idx = total - 1
    let objOut := pyRStrip obj
    let objOut := (normalize_when_in_object objOut mode negationMode
      whenPrefixes whenRegexes).1
    let objOut := pyRStrip objOut
    let kw := extract_key_when objOut
    let canonicalWhen := canonicalize_when kw.2 mode negationMode
      whenPrefixes whenRegexes
    let pairId := (kw.1, canonicalWhen)
    let st :=
      if !kw.1.isEmpty || !canonicalWhen.isEmpty then
        let fp := objFingerprint objOut
        match seenPairsGet seen pairId with
        | none => (objOut, seen ++ [(pairId, [fp])])
        | some fps =>
          let dupComment := "// DUPLICATE key: ".data ++ pyReprStr kw.1 ++
            " when: ".data ++ pyReprStr canonicalWhen
          let dupComment :=
            if fps.contains fp then dupComment ++ " (exact object match)".data
            else dupComment
          (embed_duplicate_comment_in_object objOut dupComment,
           seenPairsSet seen pairId (if fps.contains fp then fps else fps ++ [fp]))
      else (objOut, seen)
    let objOut := st.1
    let commentsPart := if comments.isEmpty then [] else removeBlankLines comments
    let objOut :=
      match rfindChar objOut '\x7d' with
      | some i => objOut.take (i + 1) ++ leadingCommaSub (objOut.drop (i + 1))
      | none => objOut
    commentsPart ++ objOut ++
      (if !isLast && !object_has_trailing_comma objOut then [','] else []) ++
      ['\n'] ++ assembleGo mode negationMode whenPrefixes whenRegexes st.2
        (idx + 1) total rest

/-- Embeds `_assemble_sorted_output`: preamble, `[\n`, the processed
groups, the trailing comment block (newline-terminated), and `]` with the
stripped postamble. -/
def assemble_sorted_output (preamble : List Char)
    (sortedGroups : List (List Char × List Char))
    (trailingComments postamble : List Char) (mode negationMode : List Char)
    (whenPrefixes : List (List Char))
    (whenRegexes : Option (List (List Char → Bool))) : List Char :=
  preamble ++ '[' :: '\n' ::
    assembleGo mode negationMode whenPrefixes whenRegexes [] 0
      sortedGroups.length sortedGroups ++
    trailingComments ++
    (if !trailingComments.isEmpty && !pyEndsWith trailingComments ['\n']
      then ['\n'] else []) ++
    (let pt := stripWsBoth postamble
     if !pt.isEmpty then ']' :: '\n' :: pt ++ ['\n'] else [']', '\n'])

/-- The split `re.split(r'\s*&&\s*|\s*\|\|\s*', text)`: at each `&&`/`||`
the match swallows the contiguous whitespace on both sides; `cur` is the
current piece, reversed (so the piece's trailing whitespace is `cur`'s
head run). -/
def splitWhenTermsGo : Nat → List Char → List Char → List (List Char)
  | 0, cur, _ => [cur.reverse]
  | _ + 1, cur, [] => [cur.reverse]
  | fuel + 1, cur, c :: cs =>
    match c, cs with
    | '&', '&' :: cs' =>
      (cur.dropWhile pyIsSpace).reverse ::
        splitWhenTermsGo fuel [] (cs'.dropWhile pyIsSpace)
    | '|', '|' :: cs' =>
      (cur.dropWhile pyIsSpace).reverse ::
        splitWhenTermsGo fuel [] (cs'.dropWhile pyIsSpace)
    | _, _ => splitWhenTermsGo fuel (c :: cur) cs

/-- The `&&`/`||` term split (`WHEN_TERM_SPLIT_RE` and the inline
`re.split` calls). -/
def split_when_terms (s : List Char) : List (List Char) :=
  splitWhenTermsGo (s.length + 1) [] s

/-- A raw (undecoded) JSON string body: the characters up to the closing
quote with escape pairs kept verbatim, and the rest after the quote.  This
is capture group 2 of `"((?:\\.|[^"\\])*)"`. -/
def rawStringBody : Nat → List Char → Option (List Char × List Char)
  | 0, _ => none
  | _ + 1, [] => none
  | fuel + 1, c :: cs =>
    if c = '"' then some ([], cs)
    else if c = '\\' then
      match cs with
      | d :: cs' => (rawStringBody fuel cs').map (fun pr => (c :: d :: pr.1, pr.2))
      | [] => none
    else (rawStringBody fuel cs).map (fun pr => (c :: pr.1, pr.2))

/-- Match `"FIELD"\s*:\s*"((?:\\.|[^"\\])*)"` at the head of `s`: the raw
captured body, or `none`. -/
def matchFieldLitAt (field s : List Char) : Option (List Char) :=
  let pat := '"' :: field ++ ['"']
  if pyStartsWith s pat then
    let t := (s.drop pat.length).dropWhile pyIsSpace
    match t with
    | ':' :: t2 =>
      match t2.dropWhile pyIsSpace with
      | '"' :: t4 => (rawStringBody (t4.length + 1) t4).map (·.1)
      | _ => none
    | _ => none
  else none

/-- First match of the field-literal pattern anywhere in `s` (`re.search`). -/
def findFieldLit : Nat → List Char → List Char → Option (List Char)
  | 0, _, _ => none
  | _ + 1, _, [] => none
  | fuel + 1, field, c :: cs =>
    match matchFieldLitAt field (c :: cs) with
    | some raw => some raw
    | none => findFieldLit fuel field cs

/-- Embeds `_extract_literal_key_from_object`. -/
def extract_literal_key_from_object (objText : List Char) : List Char :=
  match findFieldLit (objText.length + 1) "key".data objText with
  | none => []
  | some raw => decode_json_string_literal raw

/-- Embeds `_extract_literal_when_from_object`. -/
def extract_literal_when_from_object (objText : List Char) : List Char :=
  match findFieldLit (objText.length + 1) "when".data objText with
  | none => []
  | some raw => decode_json_string_literal raw

/-- The per-part test of `_contains_focus_token_in_object` (and of the
inline focus scan of `_sort_groups_for_primary_when`): strip, peel
parenthesis pairs, drop one leading `!`, and test the first word against
`FOCUS_TOKENS`. -/
def tokenHasFocus (part : List Char) : Bool :=
  let token := pyStrip part
  let token := stripParenPairs token
  if token = [] then false
  else
    let left := if pyStartsWith token ['!'] then pyLStrip (token.drop 1) else token
    let leftId := (pySplitWs left).headD []
    FOCUS_TOKENS.any (fun entry => matchesEntry leftId entry)

/-- Embeds `_contains_focus_token_in_object`: the parsed `when` (falling
back to the literal `when` field), split into `&&`/`||` terms, any of
which names a focus token. -/
def contains_focus_token_in_object (objText : List Char) : Bool :=
  let kw := extract_key_when objText
  let raw := if kw.2.isEmpty then extract_literal_when_from_object objText else kw.2
  if raw.isEmpty then false
  else (split_when_terms raw).any tokenHasFocus

/-- The loop of `_partition_focus_groups_to_end`: append each pair to the
focus or non-focus list, then concatenate. -/
def partitionFocusGo (nf f : List (List Char × List Char)) :
    List (List Char × List Char) → List (List Char × List Char)
  | [] => nf ++ f
  | p :: rest =>
    if contains_focus_token_in_object p.2 then partitionFocusGo nf (f ++ [p]) rest
    else partitionFocusGo (nf ++ [p]) f rest

/-- Embeds `_partition_focus_groups_to_end`. -/
def partition_focus_groups_to_end (sortedGroups : List (List Char × List Char)) :
    List (List Char × List Char) :=
  partitionFocusGo [] [] sortedGroups

/-- The inline focus test of `_sort_groups_for_primary_when`'s
focal-invariant branch: split the (stripped) raw `when` into terms and
look for a focus token; an empty `when` has no terms. -/
def rowFocusWhen (whenVal : List Char) : Bool :=
  if whenVal.isEmpty then false
  else (split_when_terms (pyStrip whenVal)).any tokenHasFocus

/-- A decorated row of `_sort_groups_for_primary_when`:
`(key_val, when_val, pair)`. -/
abbrev DecRow := List Char × List Char × (List Char × List Char)

/-- The focal-invariant partition loop over decorated rows. -/
def primaryWhenPartitionGo (nf f : List DecRow) : List DecRow → List DecRow
  | [] => nf ++ f
  | r :: rest =>
    if rowFocusWhen r.2.1 then primaryWhenPartitionGo nf (f ++ [r]) rest
    else primaryWhenPartitionGo (nf ++ [r]) f rest

/-- The raw `when` of a pair as `_sort_groups_for_primary_when` reads it
(both when decorating and in its final run loop): parsed field, falling
back to the literal field. -/
def whenOfPair (pair : List Char × List Char) : List Char :=
  let kw := extract_key_when pair.2
  if kw.2.isEmpty then extract_literal_when_from_object pair.2 else kw.2

/-- The raw `key` of a pair as `_sort_groups_for_primary_when` reads it:
parsed field, falling back to the literal field. -/
def keyOfPair (pair : List Char × List Char) : List Char :=
  let kw := extract_key_when pair.2
  if kw.1.isEmpty then extract_literal_key_from_object pair.2 else kw.1

/-- The final run loop of `_sort_groups_for_primary_when` (and, with the
literal-only `when` reader, of `_reorder_processed_by_when`): group
consecutive pairs with the same whitespace-normalized `when` and, unless
the negation mode is `positive` or `negative`, re-sort each run of two or
more by the natural case-sensitive key of the literal `key` field.
`readWhen` selects the reader. -/
def runResortGo (readWhen : (List Char × List Char) → List Char)
    (negationMode : List Char) : Nat → List (List Char × List Char) →
    List (List Char × List Char)
  | 0, gs => gs
  | _ + 1, [] => []
  | fuel + 1, g :: rest =>
    let norm := normalizeWhitespace (readWhen g)
    let run := rest.takeWhile (fun p => normalizeWhitespace (readWhen p) == norm)
    let rest' := rest.drop run.length
    let block := g :: run
    let block' :=
      if 1 < block.length && !(negationMode == "positive".data) &&
          !(negationMode == "negative".data) then
        stableSortBy (fun p =>
          [KE.kk (natural_key_case_sensitive (extract_literal_key_from_object p.2))])
          block
      else block
    block' ++ runResortGo readWhen negationMode fuel rest'

/-- Embeds `_sort_groups_for_primary_when`: decorate each pair with its
key and when (literal fallbacks), sort by (canonical when, raw when,
natural key of the key), under focal-invariant grouping move rows whose
`when` names a focus token to the end, and finally re-sort runs of equal
normalized `when` (skipped under `positive`/`negative` group sorting).
The debug echo loops print and change nothing. -/
def sort_groups_for_primary_when (sortedGroups : List (List Char × List Char))
    (mode negationMode : List Char) (whenPrefixes : List (List Char))
    (whenRegexes : Option (List (List Char → Bool))) :
    List (List Char × List Char) :=
  let decorated : List DecRow := sortedGroups.map (fun pair =>
    (keyOfPair pair, whenOfPair pair, pair))
  let decorated := stableSortBy (fun row =>
    [KE.kt (canonicalize_when row.2.1 mode negationMode whenPrefixes whenRegexes),
     KE.kt row.2.1, KE.kk (natural_key_case_sensitive row.1)]) decorated
  let decorated :=
    if mode = "focal-invariant".data then primaryWhenPartitionGo [] [] decorated
    else decorated
  let sorted := decorated.map (·.2.2)
  runResortGo whenOfPair negationMode (sorted.length + 1) sorted

/-- Embeds `when_specificity`: the number of `&&`/`||` terms of the
stripped clause (0 for the empty clause). -/
def when_specificity (whenVal : List Char) : Nat :=
  if whenVal.isEmpty then 0
  else (split_when_terms (pyStrip whenVal)).length

/-- Embeds `normalize_key_for_compare`: lower-case, order each chord's
modifiers alphabetically before the final literal, and re-join. -/
def normalize_key_for_compare (keyValue : List Char) : List Char :=
  if keyValue.isEmpty then []
  else
    let kv := (pyStrip keyValue).map pyToLower
    if kv.isEmpty then []
    else
      let chords := (pySplitWs kv).filter (fun p => !(pyStrip p).isEmpty)
      let outChords := chords.filterMap (fun chord =>
        let parts := ((pySplitChar '+' chord).map pyStrip).filter
          (fun b => !b.isEmpty)
        match parts.getLast? with
        | none => none
        | some lit =>
          let mods := stableSortBy (fun m => [KE.kt m]) parts.dropLast
          if mods.isEmpty then some lit
          else some (joinSep ['+'] (mods ++ [lit])))
      joinSep [' '] outChords

/-- Embeds `extract_sort_keys` specialized to the configuration `main`
uses when no flags are given: `primary='key'`, `secondary=None`.  On that
path the source appends the key's natural key (of the normalized key),
then — since `when` is in neither sort field — the when-specificity and
the natural case-sensitive key of `sortable_when_key` (which is the
canonicalized `when`), and finally prepends rank 0; an unparsable object
gets the fallback `(9999, [], (0,), [])`.  The branches for other
primary/secondary choices are not exercised by this configuration and are
not embedded. -/
def extract_sort_keys_key_default (mode negationMode : List Char)
    (whenPrefixes : List (List Char))
    (whenRegexes : Option (List (List Char → Bool)))
    (objText : List Char) : List KE :=
  match parse_object_text objText with
  | none => [.kn 9999, .kk [], .kn 0, .kk []]
  | some d =>
    let keyVal := dictGet d "key".data []
    let whenVal := dictGet d "when".data []
    let sortableWhen := canonicalize_when whenVal mode negationMode
      whenPrefixes whenRegexes
    [.kn 0, .kk (natural_key (normalize_key_for_compare keyVal)),
     .kn (when_specificity whenVal),
     .kk (natural_key_case_sensitive sortableWhen)]

/-- Embeds `_sort_groups_initial` at the default configuration (the sort
key of `extract_sort_keys_key_default`); Python's `sorted` is stable. -/
def sort_groups_initial_key_default (normalizedGroups : List (List Char × List Char))
    (mode negationMode : List Char) (whenPrefixes : List (List Char))
    (whenRegexes : Option (List (List Char → Bool))) :
    List (List Char × List Char) :=
  stableSortBy (fun pair =>
    extract_sort_keys_key_default mode negationMode whenPrefixes whenRegexes pair.2)
    normalizedGroups

/-- Embeds `_first_when_group_rank`: the semantic bucket of the first term
of the canonicalized `when`. -/
def first_when_group_rank (objText : List Char) (mode negationMode : List Char)
    (whenPrefixes : List (List Char))
    (whenRegexes : Option (List (List Char → Bool))) : Nat :=
  let kw := extract_key_when objText
  let canonical := canonicalize_when kw.2 mode negationMode whenPrefixes whenRegexes
  if canonical.isEmpty then 5
  else
    match split_when_terms (pyStrip canonical) with
    | [] => 5
    | firstTerm :: _ =>
      let first := stripParenPairs (pyStrip firstTerm)
      let left := if pyStartsWith first ['!'] then pyLStrip (first.drop 1) else first
      if left.isEmpty then 5
      else
        let leftId := (pySplitWs left).headD []
        if mode = "focal-invariant".data then
          if FOCUS_TOKENS.any (fun e => matchesEntry leftId e) then 1
          else if VISIBILITY_TOKENS.any (fun e => matchesEntry leftId e) then 2
          else if POSITIONAL_TOKENS.any (fun p => pyStartsWith leftId p) then 3
          else if pyStartsWith leftId "config.".data then 4
          else 5
        else
          if pyStartsWith leftId "config.".data then 1
          else if POSITIONAL_TOKENS.any (fun p => pyStartsWith leftId p) then 2
          else if FOCUS_TOKENS.any (fun e => matchesEntry leftId e) then 3
          else if VISIBILITY_TOKENS.any (fun e => matchesEntry leftId e) then 4
          else 5

/-- Embeds `_sort_groups_with_grouping_mode`: mode `none` returns the list
unchanged; otherwise the groups are bucketed by `_first_when_group_rank`
(which is always 1..5) and the buckets are emitted in descending rank
order, each keeping its arrival order. -/
def sort_groups_with_grouping_mode (sortedGroups : List (List Char × List Char))
    (mode negationMode : List Char) (whenPrefixes : List (List Char))
    (whenRegexes : Option (List (List Char → Bool))) :
    List (List Char × List Char) :=
  if mode = "none".data then sortedGroups
  else
    [5, 4, 3, 2, 1].foldl (fun acc r =>
      acc ++ sortedGroups.filter (fun p =>
        first_when_group_rank p.2 mode negationMode whenPrefixes whenRegexes = r)) []

/-- Match `WHEN_SORTED_RE` (`^\s*//\s*when-sorted:.*\n`, multiline) at a
line start: whitespace (newlines included, as `\s` allows), `//`, more
whitespace, the marker, the rest of that line and its newline.  Returns
the rest after the match. -/
def matchWhenSortedAt (s : List Char) : Option (List Char) :=
  let t := s.dropWhile pyIsSpace
  if pyStartsWith t "//".data then
    let t2 := (t.drop 2).dropWhile pyIsSpace
    if pyStartsWith t2 "when-sorted:".data then
      match (t2.drop 12).dropWhile (fun d => !(d = '\n')) with
      | '\n' :: rest => some rest
      | _ => none
    else none
  else none

/-- The substitution loop of `WHEN_SORTED_RE.sub('', text)`: attempt the
match at every line start. -/
def stripWhenSortedF : Nat → Bool → List Char → List Char
  | 0, _, s => s
  | _ + 1, _, [] => []
  | fuel + 1, atStart, c :: cs =>
    if atStart then
      match matchWhenSortedAt (c :: cs) with
      | some rest => stripWhenSortedF fuel true rest
      | none => c :: stripWhenSortedF fuel (c = '\n') cs
    else c :: stripWhenSortedF fuel (c = '\n') cs

/-- Embeds `_strip_when_sorted_comment`: drop `// when-sorted:` marker
lines from a comment block, but only when the object's `when` changed. -/
def strip_when_sorted_comment (commentText : List Char) (whenChanged : Bool) :
    List Char :=
  if !whenChanged then commentText
  else stripWhenSortedF (commentText.length + 1) true commentText

/-- Embeds `_with_normalized_when_groups`: right-strip and
when-normalize each object, stripping stale `when-sorted` markers from
its comments when the `when` changed. -/
def with_normalized_when_groups (groups : List (List Char × List Char))
    (mode negationMode : List Char) (whenPrefixes : List (List Char))
    (whenRegexes : Option (List (List Char → Bool))) :
    List (List Char × List Char) :=
  groups.map (fun cg =>
    let pr := normalize_when_in_object (pyRStrip cg.2) mode negationMode
      whenPrefixes whenRegexes
    (strip_when_sorted_comment cg.1 pr.2, pr.1))

/-- Match `("when"\s*:\s*")((?:\\.|[^"\\])*)(")` at the head of `s`:
(group 1, the raw body, the rest after the closing quote). -/
def matchWhenLitAt (s : List Char) :
    Option (List Char × List Char × List Char) :=
  if pyStartsWith s "\"when\"".data then
    let t := s.drop 6
    let ws1 := t.takeWhile pyIsSpace
    match t.drop ws1.length with
    | ':' :: t3 =>
      let ws2 := t3.takeWhile pyIsSpace
      match t3.drop ws2.length with
      | '"' :: t5 =>
        (rawStringBody (t5.length + 1) t5).map (fun pr =>
          ("\"when\"".data ++ ws1 ++ ':' :: ws2 ++ ['"'], pr.1, pr.2))
      | _ => none
    | _ => none
  else none

/-- The substitution loop of `_replace_when_literals`: at each match,
decode the body (`json.loads`, falling back to the raw text), canonicalize
it, and emit the JSON-escaped canonical text between the unchanged
delimiters; the further `replace('\n','\\n')`/`replace('\r','\\r')` of the
source touches characters `json.dumps` has already escaped, so it changes
nothing. -/
def replaceWhenLiteralsF (mode negationMode : List Char)
    (whenPrefixes : List (List Char))
    (whenRegexes : Option (List (List Char → Bool))) :
    Nat → List Char → List Char
  | 0, s => s
  | _ + 1, [] => []
  | fuel + 1, c :: cs =>
    match matchWhenLitAt (c :: cs) with
    | some m =>
      let unescaped := decode_json_string_literal m.2.1
      let canonical := canonicalize_when unescaped mode negationMode
        whenPrefixes whenRegexes
      m.1 ++ jsonEscapeInner canonical ++ '"' ::
        replaceWhenLiteralsF mode negationMode whenPrefixes whenRegexes fuel m.2.2
    | none =>
      c :: replaceWhenLiteralsF mode negationMode whenPrefixes whenRegexes fuel cs

/-- Embeds `_replace_when_literals`. -/
def replace_when_literals (text : List Char) (mode negationMode : List Char)
    (whenPrefixes : List (List Char))
    (whenRegexes : Option (List (List Char → Bool))) : List Char :=
  replaceWhenLiteralsF mode negationMode whenPrefixes whenRegexes
    (text.length + 1) text

/-- The line loop of `_remove_blank_lines`: keep comment-block interiors,
drop whitespace-only lines outside them. -/
def removeBlankLinesGo (inBlock : Bool) : List (List Char) → List (List Char)
  | [] => []
  | line :: rest =>
    if inBlock then
      line :: removeBlankLinesGo (!containsSub line "*/".data) rest
    else if containsSub line "/*".data then
      line :: removeBlankLinesGo (!containsSub line "*/".data) rest
    else if pyStrip line = [] then removeBlankLinesGo false rest
    else line :: removeBlankLinesGo false rest

/-- Embeds `_remove_blank_lines`. -/
def remove_blank_lines (text : List Char) : List Char :=
  (removeBlankLinesGo false (pySplitLines text)).foldr (· ++ ·) []

/-- The output loop of `_reorder_processed_by_when`: clean stray commas
after each object's closing brace, re-join comments (blank lines removed)
and objects with separating commas and newlines. -/
def reorderEmit (idx total : Nat) : List (List Char × List Char) → List Char
  | [] => []
  | (comments, obj) :: rest =>
    let isLast := idx = total - 1
    let objOut :=
      match rfindChar obj '\x7d' with
      | some i =>
        pyRStrip (obj.take (i + 1) ++ pyLStrip (leadingCommaSub (obj.drop (i + 1))))
      | none => obj
    let commentsPart := if comments.isEmpty then [] else removeBlankLines comments
    commentsPart ++ pyRStrip objOut ++
      (if !isLast && !object_has_trailing_comma objOut then [','] else []) ++
      ['\n'] ++ reorderEmit (idx + 1) total rest

/-- Embeds `LEADING_NEWLINES_RE.sub('', text)` (`^\n+`). -/
def dropLeadingNewlines (s : List Char) : List Char :=
  s.dropWhile (fun c => c = '\n')

/-- Embeds `_reorder_processed_by_when`: re-segment the processed text,
re-sort runs of equal literal `when` (unless the negation mode is
`positive`/`negative`), and re-assemble.  The source's `array_text is
None` guard is dead: `extract_preamble_postamble` never returns `None`. -/
def reorder_processed_by_when (processedText : List Char)
    (negationMode : List Char) : List Char :=
  let pr := extract_preamble_postamble processedText
  let gl := group_objects_with_comments pr.2.1
  let groupsList := runResortGo
    (fun pair => extract_literal_when_from_object pair.2) negationMode
    (gl.1.length + 1) gl.1
  let newArray := reorderEmit 0 groupsList.length groupsList ++ gl.2
  pr.1 ++ '[' :: '\n' :: dropLeadingNewlines newArray ++ ']' :: pr.2.2

/-- Embeds `_finalize_processed_output`: blank-line removal, canonical
rewriting of every `when` literal, and the final reorder pass. -/
def finalize_processed_output (text : List Char) (mode negationMode : List Char)
    (whenPrefixes : List (List Char))
    (whenRegexes : Option (List (List Char → Bool))) : List Char :=
  let processed := remove_blank_lines text
  let processed := replace_when_literals processed mode negationMode
    whenPrefixes whenRegexes
  reorder_processed_by_when processed negationMode

/-- Embeds `main` at its default configuration (no command-line flags:
`primary='key'`, `secondary=None`, `when_grouping='none'`,
`group_sorting='alpha'`, empty when-prefix list, no when-regexes): read
the input, segment it, normalize and sort the rule objects, assemble, and
finalize.  With grouping `none` the focal-invariant partition and the
primary-`when` re-sort do not run (their guards are false).  Returns
`main`'s exit code (unconditionally 0 on this path) and the text written
to standard output. -/
def main_sort_default (raw : List Char) : Nat × List Char :=
  let pr := extract_preamble_postamble raw
  let gl := group_objects_with_comments pr.2.1
  let normalizedGroups := with_normalized_when_groups gl.1
    "none".data "alpha".data [] none
  let sorted1 := sort_groups_initial_key_default normalizedGroups
    "none".data "alpha".data [] none
  let sorted2 := sort_groups_with_grouping_mode sorted1
    "none".data "alpha".data [] none
  let finalText := assemble_sorted_output pr.1 sorted2 gl.2 pr.2.2
    "none".data "alpha".data [] none
  (0, finalize_processed_output finalText "none".data "alpha".data [] none)

mutual

/-- Modelled from the spec (§4.4 Renderer), as the reference point of the
minimal-parenthesization claim: `Literal` renders verbatim; `Not(child)`
renders `!` + child, parenthesizing the child only if it is `And` or `Or`;
`And`/`Or` render children joined by ` && `/` || `, parenthesizing any
`Or` child inside an `And` and any `And` child inside an `Or`.  No
`explicit_parens` state is consulted. -/
def renderMinimalSpec : WhenNode → List Char
  | .leaf t _ => t
  | .wnot c _ =>
    '!' :: (if c.isAndOr then wrapParens (renderMinimalSpec c) else renderMinimalSpec c)
  | .wand cs _ => joinSep (' ' :: '&' :: '&' :: [' ']) (renderMinAndList cs)
  | .wor cs _ => joinSep (' ' :: '|' :: '|' :: [' ']) (renderMinOrList cs)

/-- The minimal renderer's operand list under an `And`. -/
def renderMinAndList : List WhenNode → List (List Char)
  | [] => []
  | c :: rest =>
    (if c.isOr then wrapParens (renderMinimalSpec c) else renderMinimalSpec c)
      :: renderMinAndList rest

/-- The minimal renderer's operand list under an `Or`. -/
def renderMinOrList : List WhenNode → List (List Char)
  | [] => []
  | c :: rest =>
    (if c.isAnd then wrapParens (renderMinimalSpec c) else renderMinimalSpec c)
      :: renderMinOrList rest

end

/-- A concrete rule object: trigger `x`, condition `x && y`. -/
def c6ObjXY : List Char :=
  "\x7b\n    \"key\": \"x\",\n    \"command\": \"c1\",\n    \"when\": \"x && y\"\n\x7d".data

/-- A concrete rule object: the same trigger `x`, condition `y && x`. -/
def c6ObjYX : List Char :=
  "\x7b\n    \"key\": \"x\",\n    \"command\": \"c2\",\n    \"when\": \"y && x\"\n\x7d".data

/-- The document `_assemble_sorted_output` emits for those two rules: the
second rule's condition is rewritten to the canonical `x && y`, a
`// DUPLICATE` comment is inserted inside its body, and both rules
remain. -/
def c6OutDup : List Char :=
  ("[\n\x7b\n    \"key\": \"x\",\n    \"command\": \"c1\",\n    \"when\": \"x && y\"\n\x7d,\n" ++
   "\x7b\n    // DUPLICATE key: \x27x\x27 when: \x27x && y\x27\n    \"key\": \"x\",\n    \"command\": \"c2\",\n    \"when\": \"x && y\"\n\x7d\n]\n").data

/-- A concrete rule object whose trigger spells its modifiers
`ctrl+shift`. -/
def c6ObjP : List Char :=
  "\x7b\n    \"key\": \"ctrl+shift+a\",\n    \"command\": \"c1\",\n    \"when\": \"a\"\n\x7d".data

/-- The same binding with the modifiers spelled `shift+ctrl` (equal after
trigger normalization). -/
def c6ObjQ : List Char :=
  "\x7b\n    \"key\": \"shift+ctrl+a\",\n    \"command\": \"c2\",\n    \"when\": \"a\"\n\x7d".data

/-- The document `_assemble_sorted_output` emits for those two rules: no
duplicate diagnostic appears although the normalized triggers agree. -/
def c6OutPQ : List Char :=
  ("[\n\x7b\n    \"key\": \"ctrl+shift+a\",\n    \"command\": \"c1\",\n    \"when\": \"a\"\n\x7d,\n" ++
   "\x7b\n    \"key\": \"shift+ctrl+a\",\n    \"command\": \"c2\",\n    \"when\": \"a\"\n\x7d\n]\n").data

/-- A concrete rule object whose condition names a focus token. -/
def c7ObjFocus : List Char :=
  "\x7b\n  \"key\": \"a\",\n  \"command\": \"c\",\n  \"when\": \"editorFocus && x\"\n\x7d".data

/-- A concrete rule object whose condition names no focus token. -/
def c7ObjPlain : List Char :=
  "\x7b\n  \"key\": \"b\",\n  \"command\": \"c\",\n  \"when\": \"x\"\n\x7d".data

set_option maxRecDepth 80000

/-- A tree whose `parens` flags are all cleared has a cleared root flag. -/
theorem cleared_getParens : ∀ {t : WhenNode}, parensCleared t = true →
    t.getParens = false := by
  intro t h
  cases t <;> simp_all [parensCleared, WhenNode.getParens]

mutual

/-- On a tree with all `parens` flags cleared, `to_str` coincides with the
spec's minimal renderer. -/
theorem to_str_cleared : (t : WhenNode) → parensCleared t = true →
    t.to_str = renderMinimalSpec t
  | .leaf _ _, _ => rfl
  | .wnot c _, h => by
    have hc : parensCleared c = true := by
      simp [parensCleared] at h; exact h.2
    have hcp : c.getParens = false := cleared_getParens hc
    have ih := to_str_cleared c hc
    simp only [WhenNode.to_str, renderMinimalSpec, hcp, ih, Bool.not_false,
      Bool.and_true]
  | .wand cs _, h => by
    have hcs : parensClearedList cs = true := by
      simp [parensCleared] at h; exact h.2
    simp only [WhenNode.to_str, renderMinimalSpec, andStrs_cleared cs hcs]
  | .wor cs _, h => by
    have hcs : parensClearedList cs = true := by
      simp [parensCleared] at h; exact h.2
    simp only [WhenNode.to_str, renderMinimalSpec, orStrs_cleared cs hcs]

/-- List version of `to_str_cleared` for `And` operands. -/
theorem andStrs_cleared : (cs : List WhenNode) → parensClearedList cs = true →
    andOperandStrs cs = renderMinAndList cs
  | [], _ => rfl
  | c :: rest, h => by
    have hc : parensCleared c = true := by
      simp [parensClearedList] at h; exact h.1
    have hrest : parensClearedList rest = true := by
      simp [parensClearedList] at h; exact h.2
    have hcp : c.getParens = false := cleared_getParens hc
    have ih := to_str_cleared c hc
    simp only [andOperandStrs, renderMinAndList, hcp, ih,
      andStrs_cleared rest hrest, if_false, Bool.false_eq_true]

/-- List version of `to_str_cleared` for `Or` operands. -/
theorem orStrs_cleared : (cs : List WhenNode) → parensClearedList cs = true →
    orOperandStrs cs = renderMinOrList cs
  | [], _ => rfl
  | c :: rest, h => by
    have hc : parensCleared c = true := by
      simp [parensClearedList] at h; exact h.1
    have hrest : parensClearedList rest = true := by
      simp [parensClearedList] at h; exact h.2
    have hcp : c.getParens = false := cleared_getParens hc
    have ih := to_str_cleared c hc
    simp only [orOperandStrs, renderMinOrList, hcp, ih,
      orStrs_cleared rest hrest, if_false, Bool.false_eq_true]

end

/-- On a tree with all `parens` flags cleared, the renderer coincides with
the spec's minimal renderer. -/
theorem render_cleared_eq_minimal {t : WhenNode} (h : parensCleared t = true) :
    render_when_node t = renderMinimalSpec t := by
  simp [render_when_node, cleared_getParens h, to_str_cleared t h]

mutual

/-- `clear_parens` clears every flag. -/
theorem clear_parens_cleared : (t : WhenNode) →
    parensCleared (clear_parens t) = true
  | .leaf _ _ => rfl
  | .wnot c _ => by
    simp [clear_parens, parensCleared, clear_parens_cleared c]
  | .wand cs _ => by
    simp [clear_parens, parensCleared, clearList_cleared cs]
  | .wor cs _ => by
    simp [clear_parens, parensCleared, clearList_cleared cs]

/-- List version of `clear_parens_cleared`. -/
theorem clearList_cleared : (cs : List WhenNode) →
    parensClearedList (clearParensList cs) = true
  | [] => rfl
  | c :: rest => by
    simp [clearParensList, parensClearedList, clear_parens_cleared c,
      clearList_cleared rest]

end

/-- The dedup loop only drops elements: its result is a sublist. -/
theorem dedupByRenderGo_sublist : ∀ (seen : List (List Char)) (l : List WhenNode),
    (dedupByRenderGo seen l).Sublist l := by
  intro seen l
  induction l generalizing seen with
  | nil => simp [dedupByRenderGo]
  | cons c rest ih =>
    simp only [dedupByRenderGo]
    split
    · exact (ih seen).trans (List.sublist_cons_self c rest)
    · exact (ih (render_when_node c :: seen)).cons₂ c

/-- Nothing the dedup loop keeps renders to a string already seen. -/
theorem dedupByRenderGo_not_seen : ∀ (seen : List (List Char))
    (l : List WhenNode) (y : WhenNode), y ∈ dedupByRenderGo seen l →
    render_when_node y ∉ seen := by
  intro seen l
  induction l generalizing seen with
  | nil => simp [dedupByRenderGo]
  | cons c rest ih =>
    intro y hy
    simp only [dedupByRenderGo] at hy
    split at hy
    · exact ih seen y hy
    · rcases List.mem_cons.1 hy with rfl | hy'
      · simp_all
      · have := ih (render_when_node c :: seen) y hy'
        intro hmem
        exact this (List.mem_cons_of_mem _ hmem)

/-- The renderings of the dedup loop's output are pairwise distinct. -/
theorem dedupByRenderGo_nodup : ∀ (seen : List (List Char))
    (l : List WhenNode),
    ((dedupByRenderGo seen l).map render_when_node).Nodup := by
  intro seen l
  induction l generalizing seen with
  | nil => simp [dedupByRenderGo]
  | cons c rest ih =>
    simp only [dedupByRenderGo]
    split
    · exact ih seen
    · simp only [List.map_cons, List.nodup_cons]
      refine ⟨?_, ih (render_when_node c :: seen)⟩
      intro hmem
      rcases List.mem_map.1 hmem with ⟨y, hy, hren⟩
      have := dedupByRenderGo_not_seen _ _ y hy
      exact this (by simp [hren])

/-- Membership in the dedup loop's output: exactly the elements that are
the first occurrence of their rendering among the input, with a rendering
not yet seen. -/
theorem dedupByRenderGo_mem_iff : ∀ (seen : List (List Char))
    (l : List WhenNode) (y : WhenNode),
    y ∈ dedupByRenderGo seen l ↔
      y ∈ l ∧ render_when_node y ∉ seen ∧
        l.find? (fun z => render_when_node z == render_when_node y) = some y := by
  intro seen l
  induction l generalizing seen with
  | nil => simp [dedupByRenderGo]
  | cons c rest ih =>
    intro y
    simp only [dedupByRenderGo]
    by_cases hceq : render_when_node c = render_when_node y
    · constructor
      · intro hy
        split at hy
        · rename_i hseen
          have hnot := (ih seen y).1 hy
          exact absurd (hceq ▸ hnot.2.1) (by simp_all)
        · rename_i hseen
          rcases List.mem_cons.1 hy with rfl | hy'
          · refine ⟨List.mem_cons_self _ _, by simpa using hseen, ?_⟩
            rw [List.find?_cons_of_pos _ (by simp)]
          · exfalso
            exact dedupByRenderGo_not_seen _ _ y hy' (by simp [hceq])
      · intro ⟨hmem, hnseen, hfind⟩
        rw [List.find?_cons_of_pos _ (by simp [hceq])] at hfind
        have hyc : c = y := by simpa using hfind
        subst hyc
        split
        · rename_i hseen
          exact absurd (by simpa using hseen) hnseen
        · exact List.mem_cons_self _ _
    · constructor
      · intro hy
        split at hy
        · have := (ih seen y).1 hy
          refine ⟨List.mem_cons_of_mem _ this.1, this.2.1, ?_⟩
          rw [List.find?_cons_of_neg _ (by simp [hceq])]
          exact this.2.2
        · rcases List.mem_cons.1 hy with rfl | hy'
          · exact absurd rfl hceq
          · have := (ih (render_when_node c :: seen) y).1 hy'
            refine ⟨List.mem_cons_of_mem _ this.1, ?_, ?_⟩
            · intro hm
              exact this.2.1 (List.mem_cons_of_mem _ hm)
            · rw [List.find?_cons_of_neg _ (by simp [hceq])]
              exact this.2.2
      · intro ⟨hmem, hnseen, hfind⟩
        rw [List.find?_cons_of_neg _ (by simp [hceq])] at hfind
        have hyrest : y ∈ rest := by
          rcases List.mem_cons.1 hmem with rfl | h
          · exact absurd rfl hceq
          · exact h
        split
        · exact (ih seen y).2 ⟨hyrest, hnseen, hfind⟩
        · refine List.mem_cons_of_mem _ ((ih (render_when_node c :: seen) y).2
            ⟨hyrest, ?_, hfind⟩)
          intro hm
          rcases List.mem_cons.1 hm with heq | h
          · exact hceq heq.symm
          · exact hnseen h

/-- The focus partition loop appends the non-focus groups (in order) to
`nf` and the focus groups to `f`, then concatenates. -/
theorem partitionFocusGo_eq : ∀ (gs nf f : List (List Char × List Char)),
    partitionFocusGo nf f gs =
      (nf ++ gs.filter (fun p => !contains_focus_token_in_object p.2)) ++
      (f ++ gs.filter (fun p => contains_focus_token_in_object p.2)) := by
  intro gs
  induction gs with
  | nil => intro nf f; simp [partitionFocusGo]
  | cons p rest ih =>
    intro nf f
    simp only [partitionFocusGo]
    by_cases hp : contains_focus_token_in_object p.2
    · rw [if_pos hp, ih]
      simp [hp]
    · rw [if_neg hp, ih]
      simp [hp]

/-- The decorated-row partition loop of `_sort_groups_for_primary_when`
has the same shape. -/
theorem primaryWhenPartitionGo_eq : ∀ (rs nf f : List DecRow),
    primaryWhenPartitionGo nf f rs =
      (nf ++ rs.filter (fun r => !rowFocusWhen r.2.1)) ++
      (f ++ rs.filter (fun r => rowFocusWhen r.2.1)) := by
  intro rs
  induction rs with
  | nil => intro nf f; simp [primaryWhenPartitionGo]
  | cons r rest ih =>
    intro nf f
    simp only [primaryWhenPartitionGo]
    by_cases hr : rowFocusWhen r.2.1
    · rw [if_pos hr, ih]
      simp [hr]
    · rw [if_neg hr, ih]
      simp [hr]

/-- Stable insertion produces a permutation of consing. -/
theorem insertByKey_perm (key : α → List KE) (x : α) :
    ∀ l : List α, (insertByKey key x l).Perm (x :: l) := by
  intro l
  induction l with
  | nil => simp [insertByKey]
  | cons y ys ih =>
    simp only [insertByKey]
    split
    · exact (ih.cons y).trans (List.Perm.swap x y ys)
    · exact List.Perm.refl _
    
/-- The stable sort is a permutation of its input. -/
theorem stableSortBy_perm (key : α → List KE) :
    ∀ l : List α, (stableSortBy key l).Perm l := by
  intro l
  induction l with
  | nil => simp [stableSortBy]
  | cons x xs ih =>
    exact (insertByKey_perm key x (stableSortBy key xs)).trans (ih.cons x)

/-- A take-while prefix followed by the drop of its length restores the
list. -/
theorem takeWhile_drop_append (p : α → Bool) :
    ∀ l : List α, l.takeWhile p ++ l.drop (l.takeWhile p).length = l := by
  intro l
  induction l with
  | nil => simp
  | cons x xs ih =>
    by_cases hp : p x
    · simp [List.takeWhile_cons, hp, ih]
    · simp [List.takeWhile_cons, hp]

/-- Under group sorting `positive` (and likewise `negative`) the run
re-sort loop changes nothing: its guard is false for every run. -/
theorem runResortGo_positive_id (readWhen : (List Char × List Char) → List Char) :
    ∀ (fuel : Nat) (gs : List (List Char × List Char)),
    runResortGo readWhen "positive".data fuel gs = gs := by
  intro fuel
  induction fuel with
  | zero => intro gs; simp [runResortGo]
  | succ n ih =>
    intro gs
    cases gs with
    | nil => simp [runResortGo]
    | cons g rest =>
      simp only [runResortGo]
      have h1 : ("positive".data == "positive".data) = true := by decide
      simp only [h1, Bool.not_true, Bool.and_false, Bool.false_and,
        Bool.false_eq_true, if_false, ih]
      rw [List.cons_append, takeWhile_drop_append]

/-- Under focal-invariant grouping with the profile's `positive` group
sorting, `_sort_groups_for_primary_when` returns all rows without a focus
token in their `when` first, then all rows with one. -/
theorem sort_groups_for_primary_when_focus_split
    (gs : List (List Char × List Char)) (whenPrefixes : List (List Char))
    (whenRegexes : Option (List (List Char → Bool))) :
    ∃ a b,
      sort_groups_for_primary_when gs "focal-invariant".data "positive".data
        whenPrefixes whenRegexes = a ++ b ∧
      (∀ x ∈ a, rowFocusWhen (whenOfPair x) = false) ∧
      (∀ x ∈ b, rowFocusWhen (whenOfPair x) = true) := by
  classical
  set K : DecRow → List KE := fun row =>
    [KE.kt (canonicalize_when row.2.1 "focal-invariant".data "positive".data
      whenPrefixes whenRegexes), KE.kt row.2.1,
     KE.kk (natural_key_case_sensitive row.1)] with hK
  set rows : List DecRow :=
    stableSortBy K (gs.map fun pair => (keyOfPair pair, whenOfPair pair, pair))
    with hrows
  have hmemrows : ∀ r ∈ rows, r.2.1 = whenOfPair r.2.2 := by
    intro r hr
    have : r ∈ gs.map fun pair => (keyOfPair pair, whenOfPair pair, pair) :=
      ((stableSortBy_perm K _).mem_iff).1 hr
    rcases List.mem_map.1 this with ⟨pair, _, rfl⟩
    rfl
  refine ⟨(rows.filter (fun r => !rowFocusWhen r.2.1)).map (·.2.2),
    (rows.filter (fun r => rowFocusWhen r.2.1)).map (·.2.2), ?_, ?_, ?_⟩
  · show sort_groups_for_primary_when gs _ _ _ _ = _
    simp only [sort_groups_for_primary_when, if_pos rfl, ← hK, ← hrows]
    rw [primaryWhenPartitionGo_eq]
    simp only [List.nil_append, List.map_append, if_true]
    exact runResortGo_positive_id _ _ _
  · intro x hx
    rcases List.mem_map.1 hx with ⟨r, hrf, rfl⟩
    have h1 := List.of_mem_filter hrf
    have h2 := List.mem_of_mem_filter hrf
    rw [← hmemrows r h2]
    simpa using h1
  · intro x hx
    rcases List.mem_map.1 hx with ⟨r, hrf, rfl⟩
    have h1 := List.of_mem_filter hrf
    have h2 := List.mem_of_mem_filter hrf
    rw [← hmemrows r h2]
    simpa using h1

/-- When the opening scan succeeds, the input is exactly the preamble, the
bracket, and the rest. -/
theorem findOpenSplit_eq : ∀ (fuel : Nat) (inL inB : Bool) (s p r : List Char),
    findOpenSplit fuel inL inB s = some (p, r) → s = p ++ '[' :: r := by
  intro fuel
  induction fuel with
  | zero => intro _ _ s p r h; simp [findOpenSplit] at h
  | succ n ih =>
    intro inL inB s p r h
    cases s with
    | nil => simp [findOpenSplit] at h
    | cons c cs =>
      simp only [findOpenSplit] at h
      repeat' split at h
      all_goals
        first
        | (rcases Option.map_eq_some'.1 h with ⟨pr2, hrec, heq⟩
           obtain ⟨h1, h2⟩ := Prod.mk.inj heq
           subst h1
           subst h2
           rw [ih _ _ _ _ _ hrec]
           rfl)
        | (obtain ⟨h1, h2⟩ := Prod.mk.inj (Option.some.inj h)
           subst h1
           subst h2
           subst_vars
           rfl)

/-- When the closing scan succeeds, the scanned text is exactly the array
body, the bracket, and the postamble. -/
theorem findCloseSplit_eq : ∀ (fuel : Nat) (inStr : Bool) (strCh : Char)
    (esc inL inB : Bool) (depth : Nat) (s p r : List Char),
    findCloseSplit fuel inStr strCh esc inL inB depth s = some (p, r) →
    s = p ++ ']' :: r := by
  intro fuel
  induction fuel with
  | zero => intro _ _ _ _ _ _ s p r h; simp [findCloseSplit] at h
  | succ n ih =>
    intro inStr strCh esc inL inB depth s p r h
    cases s with
    | nil => simp [findCloseSplit] at h
    | cons c cs =>
      simp only [findCloseSplit] at h
      repeat' split at h
      all_goals
        first
        | (rcases Option.map_eq_some'.1 h with ⟨pr2, hrec, heq⟩
           obtain ⟨h1, h2⟩ := Prod.mk.inj heq
           subst h1
           subst h2
           rw [ih _ _ _ _ _ _ _ _ _ hrec]
           rfl)
        | (obtain ⟨h1, h2⟩ := Prod.mk.inj (Option.some.inj h)
           subst h1
           subst h2
           subst_vars
           rfl)

/-- A text with no `[` at all makes the opening scan fail. -/
theorem findOpenSplit_none : ∀ (fuel : Nat) (inL inB : Bool) (s : List Char),
    '[' ∉ s → findOpenSplit fuel inL inB s = none := by
  intro fuel
  induction fuel with
  | zero => intro _ _ s _; simp [findOpenSplit]
  | succ n ih =>
    intro inL inB s hmem
    cases s with
    | nil => simp [findOpenSplit]
    | cons c cs =>
      have hc : ¬c = '[' := fun hceq => hmem (hceq ▸ List.mem_cons_self c cs)
      have hcs : '[' ∉ cs := fun hmem' => hmem (List.mem_cons_of_mem c hmem')
      simp only [findOpenSplit]
      repeat' split
      all_goals
        first
        | (exact absurd (by assumption) hc)
        | (rw [ih _ _ _ (fun hm => hcs (by simp_all))]; rfl)

/-- Lexer step on `!` followed by `=`: the `!` is absorbed into the
operand buffer (never emitted as a NOT token), whatever the buffer holds. -/
theorem tokGo_bang_eq_lookahead (fuel : Nat) (buf : List Char) (rEsc : Bool)
    (prev : Option Char) (cs : List Char) :
    tokGo (fuel + 1) buf false false false rEsc prev ('!' :: '=' :: cs) =
      tokGo fuel (buf ++ ['!']) false false false rEsc (some '!') ('=' :: cs) := rfl

/-- Lexer step on `!` with a non-empty operand buffer (and no `=`
lookahead): the `!` is absorbed into the buffer, not emitted as a NOT
token. -/
theorem tokGo_bang_nonempty_buffer (fuel : Nat) (buf : List Char) (rEsc : Bool)
    (prev : Option Char) (c' : Char) (cs : List Char) (hne : c' ≠ '=')
    (hbuf : pyStrip buf ≠ []) :
    tokGo (fuel + 1) buf false false false rEsc prev ('!' :: c' :: cs) =
      tokGo fuel (buf ++ ['!']) false false false rEsc (some '!') (c' :: cs) := by
  simp only [tokGo]
  simp [pyIsSpace]
  split
  next heq => exact absurd (List.cons.inj heq).1 hne
  next => rw [if_neg hbuf]

/-- Lexer step on `!` with an empty (whitespace-only) operand buffer and
no `=` lookahead: the one case where a NOT token is emitted. -/
theorem tokGo_bang_empty_buffer (fuel : Nat) (buf : List Char) (rEsc : Bool)
    (prev : Option Char) (c' : Char) (cs : List Char) (hne : c' ≠ '=')
    (hbuf : pyStrip buf = []) :
    tokGo (fuel + 1) buf false false false rEsc prev ('!' :: c' :: cs) =
      .OP ['!'] :: tokGo fuel [] false false false rEsc (some '!') (c' :: cs) := by
  simp only [tokGo]
  simp [pyIsSpace]
  split
  next heq => exact absurd (List.cons.inj heq).1 hne
  next => rw [if_pos hbuf]; simp [flushTok, hbuf]

set_option maxHeartbeats 1000000

/-- C1: the round-trip invariant fails on the code.  For the condition
`z && a"q` (an operand with an unterminated double quote) under the
canonicalizer's default policy, `canonicalize_when` reorders the operands
to `a"q && z`; re-parsing that string yields a single opaque operand
instead of the original two-operand conjunction, so under the valuation
that makes `z` false and everything else true the original condition
evaluates to `false` while the canonical string evaluates to `true` —
satisfiability is altered. -/
theorem c1_canonicalize_alters_semantics_on_unterminated_quote :
    canon_cf_alpha "z && a\"q".data = "a\"q && z".data ∧
    parse_when "z && a\"q".data =
      .wand [.leaf "z".data false, .leaf "a\"q".data false] false ∧
    parse_when "a\"q && z".data = .leaf "a\"q && z".data false ∧
    eval_when (fun s => !(s == "z".data)) (parse_when "z && a\"q".data) = false ∧
    eval_when (fun s => !(s == "z".data))
      (parse_when (canon_cf_alpha "z && a\"q".data)) = true :=
  ⟨by decide, rfl, rfl, by decide, by decide⟩

/-- C2: idempotence fails on the code.  Under the default policy,
`canonicalize_when "A || a && b"` returns `A || (a && b)` (the `And` key
is computed before the renderer adds its parentheses), but canonicalizing
that result again returns `(a && b) || A`, because on the second pass the
`Or`-level sort key of the `And` operand is its parenthesized rendering
`(a && b)`, which sorts before `A`. -/
theorem c2_idempotence_fails_on_parenthesized_rendering :
    canon_cf_alpha "A || a && b".data = "A || (a && b)".data ∧
    canon_cf_alpha (canon_cf_alpha "A || a && b".data) = "(a && b) || A".data ∧
    canon_cf_alpha (canon_cf_alpha "A || a && b".data) ≠
      canon_cf_alpha "A || a && b".data :=
  ⟨by decide, by decide, by decide⟩

/-- C3: permutation invariance fails on the code.  The operands `a1` and
`a01` have equal natural sort keys (`int('01') == int('1')`), so the
deterministic `Or` sort falls back to the original index and each
permutation of `a1 || a01` canonicalizes to itself — two different
strings for the same operand multiset. -/
theorem c3_or_permutation_canonical_forms_differ :
    canon_cf_alpha "a1 || a01".data = "a1 || a01".data ∧
    canon_cf_alpha "a01 || a1".data = "a01 || a1".data ∧
    canon_cf_alpha "a1 || a01".data ≠ canon_cf_alpha "a01 || a1".data :=
  ⟨by decide, by decide, by decide⟩

/-- C4 counterexample: `render(parse(...))` alone does not produce minimal
parentheses.  On `a && (b || c)` the explicitly parenthesized `Or` child is
wrapped twice (`render_when_node` honors the `parens` flag and
`WhenAnd.to_str` wraps the `Or` again), emitting the redundant pair
`a && ((b || c))`; and on `!(a && b)` the flagged child suppresses
`WhenNot.to_str`'s own wrapping, emitting `!a && b` and losing a required
pair. -/
theorem c4_render_parse_emits_redundant_parens :
    render_when_node (parse_when "a && (b || c)".data) = "a && ((b || c))".data ∧
    render_when_node (parse_when "!(a && b)".data) = "!a && b".data :=
  ⟨by decide, by decide⟩

/-- C4 (amended): after the explicit-parenthesis flags are cleared — the
state the canonicalizer always establishes before rendering — the
renderer is minimal: the three spec examples render as
`a && (b || c)`, `(a && b) || c` and `a && b && c`, and on any
flag-cleared tree the renderer coincides with the spec's minimal
renderer, which parenthesizes exactly an `Or` under an `And`, an `And`
under an `Or`, and a composite child under `Not`. -/
theorem c4_minimal_parenthesization_on_cleared_flags :
    render_when_node (clear_parens (parse_when "a && (b || c)".data)) =
      "a && (b || c)".data ∧
    render_when_node (clear_parens (parse_when "(a && b) || c".data)) =
      "(a && b) || c".data ∧
    render_when_node (parse_when "a && b && c".data) = "a && b && c".data ∧
    (∀ t : WhenNode, parensCleared t = true →
      render_when_node t = renderMinimalSpec t) ∧
    (∀ t : WhenNode, parensCleared (clear_parens t) = true) := by
  refine ⟨by decide, by decide, by decide, ?_, clear_parens_cleared⟩
  intro t h
  exact render_cleared_eq_minimal h

/-- C5: deduplication inside `And`/`Or` nodes drops exactly the operands
whose rendered text repeats an earlier sibling's, keeping the first
occurrence and never merging distinct renderings: the three spec examples
hold, and the dedup loop of `sort_and_nodes` returns a sublist of its
input whose renderings are pairwise distinct and whose members are
precisely the first occurrences of each rendering. -/
theorem c5_dedup_within_and_or :
    canon_cf_alpha "a && a".data = "a".data ∧
    canon_cf_alpha "a || a || b".data = "a || b".data ∧
    canon_cf_alpha "a && !a".data = "a && !a".data ∧
    (∀ l : List WhenNode, (dedupByRender l).Sublist l) ∧
    (∀ l : List WhenNode, ((dedupByRender l).map render_when_node).Nodup) ∧
    (∀ (l : List WhenNode) (y : WhenNode),
      y ∈ dedupByRender l ↔ y ∈ l ∧
        l.find? (fun z => render_when_node z == render_when_node y) = some y) := by
  refine ⟨by decide, by decide, by decide, ?_, ?_, ?_⟩
  · intro l
    exact dedupByRenderGo_sublist [] l
  · intro l
    exact dedupByRenderGo_nodup [] l
  · intro l y
    simpa [dedupByRender] using dedupByRenderGo_mem_iff [] l y

/-- C6 counterexample: the duplicate key is the raw trigger string, not a
normalized one.  The triggers `ctrl+shift+a` and `shift+ctrl+a` normalize
identically under `normalize_key_for_compare`, yet assembling two rules
that differ only in that spelling (same condition `a`) inserts no
`DUPLICATE` diagnostic. -/
theorem c6_raw_trigger_pair_misses_normalized_duplicate :
    normalize_key_for_compare "ctrl+shift+a".data =
      normalize_key_for_compare "shift+ctrl+a".data ∧
    assemble_sorted_output [] [([], c6ObjP), ([], c6ObjQ)] [] []
      "none".data "alpha".data [] none = c6OutPQ ∧
    containsSub c6OutPQ "DUPLICATE".data = false :=
  ⟨by decide, by decide, by decide⟩

/-- C6 (amended): a record whose (raw trigger string, canonical condition)
pair was already seen receives a `// DUPLICATE` diagnostic comment inside
its rule body and is not deleted; in particular `x && y` and `y && x`
under the same trigger canonicalize to the same condition, the second rule
is annotated, and both rules survive in the output. -/
theorem c6_duplicate_comment_inserted_not_deleted :
    canonicalize_when "x && y".data "none".data "alpha".data [] none =
      "x && y".data ∧
    canonicalize_when "y && x".data "none".data "alpha".data [] none =
      "x && y".data ∧
    assemble_sorted_output [] [([], c6ObjXY), ([], c6ObjYX)] [] []
      "none".data "alpha".data [] none = c6OutDup ∧
    containsSub c6OutDup
      "// DUPLICATE key: \x27x\x27 when: \x27x && y\x27".data = true ∧
    containsSub c6OutDup "\"command\": \"c1\"".data = true ∧
    containsSub c6OutDup "\"command\": \"c2\"".data = true :=
  ⟨by decide, by decide, by decide, by decide, by decide, by decide⟩

/-- C7: under focal-invariant grouping every rule whose condition names a
recognized focus identifier is placed after all rules that name none.
`_partition_focus_groups_to_end` returns exactly the non-focus groups (in
order) followed by the focus groups; the concrete pair shows the focus
rule moving behind the plain one; and `_sort_groups_for_primary_when`
(the pass that re-sorts when the primary field is `when`, with the
focal-invariant profile's `positive` group sorting) again ends with the
focus rows as a suffix, whatever the sort keys said. -/
theorem c7_focus_rules_moved_to_end :
    (∀ gs : List (List Char × List Char),
      partition_focus_groups_to_end gs =
        gs.filter (fun p => !contains_focus_token_in_object p.2) ++
        gs.filter (fun p => contains_focus_token_in_object p.2)) ∧
    partition_focus_groups_to_end [([], c7ObjFocus), ([], c7ObjPlain)] =
      [([], c7ObjPlain), ([], c7ObjFocus)] ∧
    contains_focus_token_in_object c7ObjFocus = true ∧
    contains_focus_token_in_object c7ObjPlain = false ∧
    (∀ (gs : List (List Char × List Char)) (whenPrefixes : List (List Char))
      (whenRegexes : Option (List (List Char → Bool))), ∃ a b,
      sort_groups_for_primary_when gs "focal-invariant".data "positive".data
        whenPrefixes whenRegexes = a ++ b ∧
      (∀ x ∈ a, rowFocusWhen (whenOfPair x) = false) ∧
      (∀ x ∈ b, rowFocusWhen (whenOfPair x) = true)) := by
  refine ⟨?_, by decide, by decide, by decide, ?_⟩
  · intro gs
    have h := partitionFocusGo_eq gs [] []
    simpa [partition_focus_groups_to_end] using h
  · intro gs whenPrefixes whenRegexes
    exact sort_groups_for_primary_when_focus_split gs whenPrefixes whenRegexes

/-- C8 counterexample: a run on input with no top-level array does not
abort.  On the input `hello` the whole default pipeline runs to
completion, returns exit code 0, and writes a transformed document (an
empty array followed by the preserved input text). -/
theorem c8_missing_array_run_produces_output :
    main_sort_default "hello".data = (0, "[\n]\nhello\n".data) := by decide

/-- C8 (amended): when the input holds no top-level array the segmenter
returns empty preamble and array text with the whole input as the third
component, and the run does not abort: `main` continues, emits a document
containing an empty array with the input preserved after it, and exits
0. -/
theorem c8_missing_array_empty_bounds_and_continue :
    (∀ text : List Char, '[' ∉ text →
      extract_preamble_postamble text = ([], [], text)) ∧
    extract_preamble_postamble "hello".data = ([], [], "hello".data) ∧
    main_sort_default "hello".data = (0, "[\n]\nhello\n".data) := by
  refine ⟨?_, by decide, by decide⟩
  intro text hmem
  unfold extract_preamble_postamble
  rw [findOpenSplit_none _ _ _ _ hmem]

/-- C9: the lexer treats `!` as unary-not only when the operand buffer is
empty, and `!=` stays inside an operand: `a!=b` lexes to the single
operand `a!=b`; a `!` followed by `=` is always absorbed into the buffer;
a `!` with a non-empty buffer is absorbed; and the NOT token is emitted
exactly in the remaining case, a `!` on an empty (whitespace-only)
buffer with no `=` lookahead. -/
theorem c9_bang_operand_lexing :
    tokenize_when "a!=b".data = [.OPERAND "a!=b".data] ∧
    (∀ (fuel : Nat) (buf : List Char) (rEsc : Bool) (prev : Option Char)
      (cs : List Char),
      tokGo (fuel + 1) buf false false false rEsc prev ('!' :: '=' :: cs) =
        tokGo fuel (buf ++ ['!']) false false false rEsc (some '!') ('=' :: cs)) ∧
    (∀ (fuel : Nat) (buf : List Char) (rEsc : Bool) (prev : Option Char)
      (c' : Char) (cs : List Char), c' ≠ '=' → pyStrip buf ≠ [] →
      tokGo (fuel + 1) buf false false false rEsc prev ('!' :: c' :: cs) =
        tokGo fuel (buf ++ ['!']) false false false rEsc (some '!') (c' :: cs)) ∧
    (∀ (fuel : Nat) (buf : List Char) (rEsc : Bool) (prev : Option Char)
      (c' : Char) (cs : List Char), c' ≠ '=' → pyStrip buf = [] →
      tokGo (fuel + 1) buf false false false rEsc prev ('!' :: c' :: cs) =
        .OP ['!'] :: tokGo fuel [] false false false rEsc (some '!') (c' :: cs)) :=
  ⟨by decide, tokGo_bang_eq_lookahead, tokGo_bang_nonempty_buffer,
   tokGo_bang_empty_buffer⟩

/-- C10: the segmenter's decomposition is lossless — when it locates a
top-level array, preamble ++ `[` ++ array text ++ `]` ++ postamble equals
the input byte for byte; otherwise it returns empty preamble and array
text with the whole input as the third component. -/
theorem c10_segmenter_lossless_decomposition :
    ∀ text : List Char,
      (∃ p a q, extract_preamble_postamble text = (p, a, q) ∧
        p ++ '[' :: a ++ ']' :: q = text) ∨
      extract_preamble_postamble text = ([], [], text) := by
  intro text
  unfold extract_preamble_postamble
  cases hopen : findOpenSplit (text.length + 1) false false text with
  | none => right; rfl
  | some pr =>
    cases hclose : findCloseSplit (pr.2.length + 1) false ' ' false false false 1
        pr.2 with
    | none => right; simp only [hclose]
    | some qr =>
      left
      refine ⟨pr.1, qr.1, qr.2, by simp only [hclose], ?_⟩
      have h1 := findOpenSplit_eq _ _ _ _ pr.1 pr.2 hopen
      have h2 := findCloseSplit_eq _ _ _ _ _ _ _ _ qr.1 qr.2 hclose
      rw [h1, h2]
      simp
